import Mathlib

/-!
# A radix tree set of byte strings (`radix_tree_set.cc`)

Shallow embedding of `RadixTreeSet` and its two operations `Insert` and `Find`.

* A `char` is modelled by the integer it is promoted to in a comparison, so the
  development covers both a signed and an unsigned `char`.
* A `std::string` is the list of its bytes.  The byte stored right behind the last
  one is the terminator `0`: this is what `*b` reads when the cursor `b` has reached
  `e`, what `key[0]` reads on an empty fragment, and what the three-iterator
  `std::mismatch` reads when the fragment is shorter than the rest of the key.
* Behind the terminator lie bytes that are not part of the string. When
  `std::mismatch` runs on behind the terminator of a fragment, the position it returns
  depends on those bytes; all that is known of it is that it lies behind the end of the
  fragment (`Mis.behind`).
* Building a string from a reversed iterator range throws `std::length_error`, which
  nothing catches (`Fault.length_error`).
* `size_` is a `size_t`; it is incremented once per call and modelled by a natural
  number (the counter cannot wrap before the tree exhausts the address space).
-/

/-- Ways in which a call does not return. `length_error`: the split builds
`string(mis.second, end(key))` with `mis.second` behind `end(key)`, which throws
`std::length_error`. `fuel`: the loop counter of the model ran out (shown below never to
happen). -/
inductive Fault where
  | length_error
  | fuel
  deriving DecidableEq

/-- Where `std::mismatch` stops. `ok m`: both iterators have advanced by `m` positions,
the second one at most to the byte right behind the terminator of the fragment.
`behind`: the loop has compared bytes behind the terminator; the second iterator is
somewhere behind the end of the fragment, at a position that depends on bytes that are
not part of the string. -/
inductive Mis where
  | ok (m : Nat)
  | behind
  deriving DecidableEq

/-- Both iterators one position further (the loop had advanced once before). -/
def Mis.succ : Mis → Mis
  | .ok m => .ok (m + 1)
  | .behind => .behind

instance instDecidableEqExcept {ε α : Type} [DecidableEq ε] [DecidableEq α] :
    DecidableEq (Except ε α) := fun a b =>
  match a, b with
  | .ok x, .ok y =>
      if h : x = y then isTrue (by rw [h]) else isFalse (by intro h2; cases h2; exact h rfl)
  | .error x, .error y =>
      if h : x = y then isTrue (by rw [h]) else isFalse (by intro h2; cases h2; exact h rfl)
  | .ok _, .error _ => isFalse (by intro h; cases h)
  | .error _, .ok _ => isFalse (by intro h; cases h)

/-- The struct `RadixTreeSet::Node`: fragment `key`, owned `children`, flag `is_leaf`. -/
inductive Node where
  | mk (key : List Int) (children : List Node) (is_leaf : Bool)

namespace Node

/-- Field `key`. -/
def key : Node → List Int
  | .mk k _ _ => k

/-- Field `children`. -/
def children : Node → List Node
  | .mk _ c _ => c

/-- Field `is_leaf`. -/
def is_leaf : Node → Bool
  | .mk _ _ l => l

end Node

/-- The byte `s[0]` of a string, also `*b` for a cursor at the start of `s`: the first
byte, or the terminator `0` when `s` is empty. -/
def front (s : List Int) : Int := s.headD 0

/-- The comparison `operator<(const unique_ptr<Node> &lhs, char rhs)`:
`lhs->key[0] < rhs`. -/
def node_lt (lhs : Node) (rhs : Int) : Bool := decide (front lhs.key < rhs)

/-- The loop of the standard library's `std::lower_bound` over `cs[first, first + len)`
with `node_lt` as comparison: halve the range, continue behind the middle element when it
is less than `value` and before it otherwise. The first argument bounds the number of
rounds; `len` rounds are always enough (`lower_bound_loop_fuel`). -/
def lower_bound_loop : Nat → List Node → Nat → Nat → Int → Nat
  | 0, _, first, _, _ => first
  | fuel + 1, cs, first, len, value =>
    if len = 0 then first
    else
      let half := len / 2
      let middle := first + half
      match cs[middle]? with
      | none => first
      | some n =>
        if node_lt n value then lower_bound_loop fuel cs (middle + 1) (len - half - 1) value
        else lower_bound_loop fuel cs first half value

/-- The call `lower_bound(begin(*node), end(*node), value)`: the index of the iterator
it returns; `cs.length` stands for `end(*node)`. -/
def lower_bound (cs : List Node) (value : Int) : Nat :=
  lower_bound_loop cs.length cs 0 cs.length value

/-- The call `mismatch(b, e, begin(frag))` of the standard library, as the number of
positions by which it advances both iterators (`mis.first` is `b` plus this number,
`mis.second` is `begin(frag)` plus this number). The loop stops at `e` or at the first
pair of different bytes. The second range is given without an end: behind the last byte
of `frag` the loop reads the terminator, and when the key has a zero byte there and goes
on, the loop compares the rest of the key with the bytes behind the terminator
(`Mis.behind`). -/
def mismatch : List Int → List Int → Mis
  | [], _ => .ok 0
  | x :: xs, y :: ys => if x = y then (mismatch xs ys).succ else .ok 0
  | x :: xs, [] =>
    if x = 0 then
      (match xs with
       | [] => .ok 1
       | _ :: _ => .behind)
    else .ok 0

/-- The split of lines 38-43: a new node takes the unmatched suffix of the fragment, the
leaf flag and the children; the candidate keeps the matched prefix, is no leaf and has
the new node as its only child. -/
def split (c : Node) (m : Nat) : Node :=
  .mk (c.key.take m) [.mk (c.key.drop m) c.children c.is_leaf] false

/-- The assignment `(*it)->is_leaf = true`. -/
def set_leaf (c : Node) : Node := .mk c.key c.children true

/-- The loop of `Insert` from the iteration that looks at `node` with the cursor at the
start of `b` (the list `b` is the range from `b` to `e`). The result is the returned
flag, the node as the loop leaves it and the updated `size_`. In order: `it == end`
appends a leaf; `mis.second == begin` inserts a leaf at `it`; `mis.second != end` splits
the candidate, which throws when `mis.second` is behind the end, and returns when
`mis.first == e`; otherwise the loop goes on in the candidate with the cursor at
`mis.first`. The first argument bounds the number of iterations; one more than the
length of `b` is always enough (`InsertLoop_fuel`). -/
def InsertLoop : Nat → Node → List Int → Nat → Except Fault (Bool × Node × Nat)
  | 0, _, _, _ => .error .fuel
  | fuel + 1, .mk key children is_leaf, b, size_ =>
    let it := lower_bound children (front b)
    match children[it]? with
    | none => .ok (true, .mk key (children ++ [.mk b [] true]) is_leaf, size_ + 1)
    | some c =>
      match mismatch b c.key with
      | .behind => .error .length_error
      | .ok m =>
        if m = 0 then
          .ok (true, .mk key (children.insertIdx it (.mk b [] true)) is_leaf, size_ + 1)
        else if m ≠ c.key.length ∧ c.key.length < m then .error .length_error
        else if m ≠ c.key.length ∧ m = b.length then
          .ok (true, .mk key (children.set it (set_leaf (split c m))) is_leaf, size_ + 1)
        else
          match InsertLoop fuel (if m ≠ c.key.length then split c m else c) (b.drop m) size_ with
          | .error f => .error f
          | .ok (r, c2, s) => .ok (r, .mk key (children.set it c2) is_leaf, s)

mutual
/-- The loop of `Find` from the iteration that looks at `node` with the cursor at the
start of `b`. -/
def FindLoop : Node → List Int → Except Fault Bool
  | .mk _ children _, b => FindAt children (lower_bound children (front b)) b
/-- The body of the loop of `Find` once `it` is known: `it` is the index into the
children that are left. A position of `mis.second` behind the end of the fragment is
not the end, so `Find` returns `false` there. -/
def FindAt : List Node → Nat → List Int → Except Fault Bool
  | [], _, _ => .ok false
  | c :: _, 0, b =>
    match mismatch b c.key with
    | .behind => .ok false
    | .ok m =>
      if m ≠ c.key.length then .ok false
      else if m = b.length ∧ c.is_leaf = true then .ok true
      else FindLoop c (b.drop m)
  | _ :: cs, it + 1, b => FindAt cs it b
end

/-- The class `RadixTreeSet`: the root node and the counter `size_`. -/
structure RadixTreeSet where
  root_ : Node
  size_ : Nat

namespace RadixTreeSet

/-- A default-constructed set: a root without children, `size_{0}`. The root's own
`is_leaf` is never read by `Insert` or `Find`. -/
def empty : RadixTreeSet := ⟨.mk [] [] false, 0⟩

/-- The method `size()`. -/
def size (t : RadixTreeSet) : Nat := t.size_

/-- The method `Insert(const string &key)`: the returned flag and the set afterwards. -/
def Insert (t : RadixTreeSet) (key : List Int) : Except Fault (Bool × RadixTreeSet) :=
  match InsertLoop (key.length + 1) t.root_ key t.size_ with
  | .error f => .error f
  | .ok (r, n, s) => .ok (r, ⟨n, s⟩)

/-- The method `Find(const string &key)`. -/
def Find (t : RadixTreeSet) (key : List Int) : Except Fault Bool := FindLoop t.root_ key

end RadixTreeSet

/-- The first loop of `main`: insert the lines one after the other. -/
def insertAll : RadixTreeSet → List (List Int) → Except Fault RadixTreeSet
  | t, [] => .ok t
  | t, k :: ks =>
    match t.Insert k with
    | .error f => .error f
    | .ok (_, t1) => insertAll t1 ks

/-! ## Paths, stored keys and the shape of an insertion -/

mutual
/-- A node and the nodes under it, each with the concatenation of the fragments from the
node itself down to it. -/
def Node.subtree : Node → List (List Int × Node)
  | .mk k cs l => (k, .mk k cs l) :: (below cs).map (fun e => (k ++ e.1, e.2))
/-- The nodes under a list of siblings, each with the concatenation of the fragments
on the way to it; for the children of the root this is the path from the root. -/
def below : List Node → List (List Int × Node)
  | [] => []
  | c :: cs => c.subtree ++ below cs
end

/-- The paths of the nodes under `cs` that are marked as leaves. -/
def stored (cs : List Node) : List (List Int) :=
  ((below cs).filter (fun e => e.2.is_leaf)).map (fun e => e.1)

/-- The non-root nodes of a set, each with the concatenation of the fragments on the
path from the root to it. -/
def RadixTreeSet.nodes (t : RadixTreeSet) : List (List Int × Node) := below t.root_.children

/-- One call of the loop of `Insert` that returns, as a relation between the node the
loop starts at, the rest of the key and the node afterwards. One constructor per
`return` of the loop and per way to reach the next iteration. -/
inductive Ins : Node → List Int → Node → Prop where
  | append (k : List Int) (cs : List Node) (l : Bool) (b : List Int)
      (hit : cs.length ≤ lower_bound cs (front b)) :
      Ins (.mk k cs l) b (.mk k (cs ++ [.mk b [] true]) l)
  | before (k : List Int) (L : List Node) (c : Node) (R : List Node) (l : Bool) (b : List Int)
      (hit : lower_bound (L ++ c :: R) (front b) = L.length)
      (hm : mismatch b c.key = .ok 0) :
      Ins (.mk k (L ++ c :: R) l) b (.mk k (L ++ .mk b [] true :: c :: R) l)
  | split_leaf (k : List Int) (L : List Node) (c : Node) (R : List Node) (l : Bool)
      (b : List Int) (m : Nat)
      (hit : lower_bound (L ++ c :: R) (front b) = L.length)
      (hm : mismatch b c.key = .ok m) (h0 : m ≠ 0) (h1 : m < c.key.length)
      (h2 : m = b.length) :
      Ins (.mk k (L ++ c :: R) l) b (.mk k (L ++ set_leaf (split c m) :: R) l)
  | split_descend (k : List Int) (L : List Node) (c : Node) (R : List Node) (l : Bool)
      (b : List Int) (m : Nat) (c2 : Node)
      (hit : lower_bound (L ++ c :: R) (front b) = L.length)
      (hm : mismatch b c.key = .ok m) (h0 : m ≠ 0) (h1 : m < c.key.length)
      (h2 : m ≠ b.length) (hrec : Ins (split c m) (b.drop m) c2) :
      Ins (.mk k (L ++ c :: R) l) b (.mk k (L ++ c2 :: R) l)
  | descend (k : List Int) (L : List Node) (c : Node) (R : List Node) (l : Bool)
      (b : List Int) (m : Nat) (c2 : Node)
      (hit : lower_bound (L ++ c :: R) (front b) = L.length)
      (hm : mismatch b c.key = .ok m) (h0 : m ≠ 0) (h1 : m = c.key.length)
      (hrec : Ins c (b.drop m) c2) :
      Ins (.mk k (L ++ c :: R) l) b (.mk k (L ++ c2 :: R) l)

/-- The stored keys contributed by one sibling and the nodes under it. -/
def stored_sub (c : Node) : List (List Int) :=
  (if c.is_leaf then [c.key] else []) ++ (stored c.children).map (fun p => c.key ++ p)

/-! ## The invariant kept by keys without a zero byte -/

/-- Two siblings in the order `Insert` keeps them in: ascending leading byte, where
only nodes with an empty fragment may repeat it. -/
def sib (a b : Node) : Prop := front a.key < front b.key ∨ (a.key = [] ∧ b.key = [])

/-- A non-root node built from keys without a zero byte: no zero byte in the fragment,
and an empty fragment only on a leaf without children. -/
def child_ok (c : Node) : Prop :=
  (0 : Int) ∉ c.key ∧ (c.key = [] → c.children = [] ∧ c.is_leaf = true)

/-- The invariant of the nodes reachable by inserting keys without a zero byte. -/
inductive Good : Node → Prop where
  | mk (k : List Int) (cs : List Node) (l : Bool) (hs : cs.Pairwise sib)
      (hc : ∀ c ∈ cs, child_ok c) (hg : ∀ c ∈ cs, Good c) : Good (.mk k cs l)

/-- The children of a node are in strictly ascending order of the byte the sibling
comparison reads. -/
def strict_siblings (n : Node) : Prop :=
  (n.children.map (fun c => front c.key)).Pairwise (fun x y => x < y)

/-- A non-root node either has a non-empty fragment or is a leaf without children. -/
def fragment_ok (n : Node) : Prop :=
  n.key ≠ [] ∨ (n.children = [] ∧ n.is_leaf = true)

/-- Every node under the siblings `cs` (themselves included) satisfies `P`. -/
def all_below (P : Node → Prop) (cs : List Node) : Prop := ∀ e ∈ below cs, P e.2

mutual
/-- The loop of `Find` with a counter: the result of `FindLoop` and the number of times
the loop has executed `node = it->get()`, that is, has descended into a child. -/
def FindLoopN : Node → List Int → Except Fault (Bool × Nat)
  | .mk _ children _, b => FindAtN children (lower_bound children (front b)) b
/-- The body of the loop of `Find` with the counter of `FindLoopN`. -/
def FindAtN : List Node → Nat → List Int → Except Fault (Bool × Nat)
  | [], _, _ => .ok (false, 0)
  | c :: _, 0, b =>
    match mismatch b c.key with
    | .behind => .ok (false, 0)
    | .ok m =>
      if m ≠ c.key.length then .ok (false, 0)
      else if m = b.length ∧ c.is_leaf = true then .ok (true, 0)
      else
        match FindLoopN c (b.drop m) with
        | .error f => .error f
        | .ok (r, d) => .ok (r, d + 1)
  | _ :: cs, it + 1, b => FindAtN cs it b
end

/-! ## The sibling lookup -/

theorem lower_bound_loop_eq (v : Int) (L R : List Node)
    (hL : ∀ x ∈ L, node_lt x v = true) (hR : ∀ x ∈ R, node_lt x v = false) :
    ∀ (fuel first len : Nat), len ≤ fuel → first ≤ L.length → L.length ≤ first + len →
      first + len ≤ (L ++ R).length →
      lower_bound_loop fuel (L ++ R) first len v = L.length := by
  intro fuel
  induction fuel with
  | zero =>
    intro first len h1 h2 h3 _
    simp only [lower_bound_loop]
    omega
  | succ fuel ih =>
    intro first len h1 h2 h3 h4
    simp only [lower_bound_loop]
    by_cases hlen : len = 0
    · simp only [hlen, if_true]; omega
    · simp only [hlen, if_false]
      have hmid : first + len / 2 < (L ++ R).length := by
        have : len / 2 < len := Nat.div_lt_self (Nat.pos_of_ne_zero hlen) (by decide)
        omega
      rw [List.getElem?_eq_getElem hmid]
      simp only []
      by_cases hP : node_lt ((L ++ R)[first + len / 2]) v = true
      · simp only [hP, if_true]
        have hlt : first + len / 2 < L.length := by
          by_contra hge
          have hge : L.length ≤ first + len / 2 := not_lt.mp hge
          have hmem : (L ++ R)[first + len / 2] ∈ R := by
            rw [List.getElem_append_right hge]
            exact List.getElem_mem _
          rw [hR _ hmem] at hP
          exact Bool.false_ne_true hP
        apply ih
        · omega
        · omega
        · omega
        · omega
      · simp only [hP]
        have hge : L.length ≤ first + len / 2 := by
          by_contra hlt
          have hlt : first + len / 2 < L.length := not_le.mp hlt
          have hmem : (L ++ R)[first + len / 2] ∈ L := by
            rw [List.getElem_append_left hlt]
            exact List.getElem_mem _
          exact hP (hL _ hmem)
        apply ih
        · omega
        · omega
        · omega
        · omega

theorem lower_bound_append (v : Int) (L R : List Node)
    (hL : ∀ x ∈ L, node_lt x v = true) (hR : ∀ x ∈ R, node_lt x v = false) :
    lower_bound (L ++ R) v = L.length := by
  unfold lower_bound
  apply lower_bound_loop_eq v L R hL hR
  · exact le_refl _
  · exact Nat.zero_le _
  · simp
  · simp

/-! ## Lists of siblings -/

theorem getElem?_decomp {α : Type} (cs : List α) (i : Nat) (c : α) (h : cs[i]? = some c) :
    cs = cs.take i ++ c :: cs.drop (i + 1) ∧ (cs.take i).length = i := by
  have hi : i < cs.length := by
    by_contra hge
    rw [List.getElem?_eq_none (not_lt.mp hge)] at h
    cases h
  have hc : cs[i] = c := by
    rw [List.getElem?_eq_getElem hi] at h
    exact Option.some.inj h
  constructor
  · rw [← hc, ← List.drop_eq_getElem_cons hi, List.take_append_drop]
  · rw [List.length_take]; omega

theorem set_decomp {α : Type} (L : List α) (c x : α) (R : List α) :
    (L ++ c :: R).set L.length x = L ++ x :: R := by
  induction L with
  | nil => rfl
  | cons a L ih => simp [List.set, ih]

theorem insertIdx_decomp {α : Type} (L : List α) (x : α) (R : List α) :
    (L ++ R).insertIdx L.length x = L ++ x :: R := by
  induction L with
  | nil => simp [List.insertIdx_zero]
  | cons a L ih => simp [List.insertIdx_succ_cons, ih]

theorem getElem?_decomp_mid {α : Type} (L : List α) (c : α) (R : List α) :
    (L ++ c :: R)[L.length]? = some c := by
  rw [List.getElem?_append_right (le_refl _)]
  simp

/-! ## The comparison of the key with a fragment -/

theorem mismatch_le_left : ∀ (b f : List Int) (m : Nat), mismatch b f = .ok m → m ≤ b.length
  | [], f, m, h => by
    simp only [mismatch] at h
    cases h
    exact Nat.zero_le _
  | x :: xs, y :: ys, m, h => by
    simp only [mismatch] at h
    by_cases hxy : x = y
    · simp only [hxy, if_true] at h
      cases hr : mismatch xs ys with
      | behind => rw [hr] at h; cases h
      | ok m1 =>
        rw [hr] at h
        cases h
        have := mismatch_le_left xs ys m1 hr
        simp only [List.length_cons]
        omega
    · simp only [hxy, if_false] at h
      cases h
      exact Nat.zero_le _
  | x :: xs, [], m, h => by
    simp only [mismatch] at h
    by_cases hx : x = 0
    · simp only [hx, if_true] at h
      cases xs with
      | nil => cases h; simp
      | cons a as => cases h
    · simp only [hx, if_false] at h
      cases h
      exact Nat.zero_le _

theorem mismatch_take : ∀ (b f : List Int) (m : Nat), mismatch b f = .ok m → m ≤ f.length →
    b.take m = f.take m
  | [], f, m, h, _ => by
    simp only [mismatch] at h
    cases h
    simp
  | x :: xs, y :: ys, m, h, hm => by
    simp only [mismatch] at h
    by_cases hxy : x = y
    · simp only [hxy, if_true] at h
      cases hr : mismatch xs ys with
      | behind => rw [hr] at h; cases h
      | ok m1 =>
        rw [hr] at h
        cases h
        simp only [List.length_cons] at hm
        have := mismatch_take xs ys m1 hr (by omega)
        simp [List.take, hxy, this]
    · simp only [hxy, if_false] at h
      cases h
      simp
  | x :: xs, [], m, h, hm => by
    simp only [List.length_nil, Nat.le_zero] at hm
    subst hm
    simp

theorem mismatch_front : ∀ (b f : List Int) (m : Nat), mismatch b f = .ok m → m ≤ f.length →
    m < b.length → front (b.drop m) ≠ front (f.drop m)
  | [], f, m, _, _, hb => by simp at hb
  | x :: xs, y :: ys, m, h, hm, hb => by
    simp only [mismatch] at h
    by_cases hxy : x = y
    · simp only [hxy, if_true] at h
      cases hr : mismatch xs ys with
      | behind => rw [hr] at h; cases h
      | ok m1 =>
        rw [hr] at h
        cases h
        simp only [List.length_cons] at hm hb
        have := mismatch_front xs ys m1 hr (by omega) (by omega)
        simpa using this
    · simp only [hxy, if_false] at h
      cases h
      simpa [front] using hxy
  | x :: xs, [], m, h, hm, _ => by
    simp only [List.length_nil, Nat.le_zero] at hm
    subst hm
    simp only [mismatch] at h
    by_cases hx : x = 0
    · simp only [hx, if_true] at h
      cases xs with
      | nil => cases h
      | cons a as => cases h
    · simpa [front] using hx

theorem mismatch_zero_free : ∀ (b f : List Int), (0 : Int) ∉ b →
    ∃ m, mismatch b f = .ok m ∧ m ≤ f.length
  | [], f, _ => ⟨0, by simp [mismatch], Nat.zero_le _⟩
  | x :: xs, y :: ys, hb => by
    have hxs : (0 : Int) ∉ xs := fun h => hb (List.mem_cons_of_mem _ h)
    obtain ⟨m, hm, hle⟩ := mismatch_zero_free xs ys hxs
    by_cases hxy : x = y
    · exact ⟨m + 1, by simp [mismatch, hxy, hm, Mis.succ], by simpa using hle⟩
    · exact ⟨0, by simp [mismatch, hxy], Nat.zero_le _⟩
  | x :: xs, [], hb => by
    have hx : x ≠ 0 := fun h => hb (by simp [h])
    exact ⟨0, by simp [mismatch, hx], Nat.zero_le _⟩

/-! ## Every returning call of the loop of `Insert` is one of the cases of `Ins` -/

theorem InsertLoop_ok : ∀ (fuel : Nat) (n : Node) (b : List Int) (s : Nat) (r : Bool)
    (n2 : Node) (s2 : Nat), InsertLoop fuel n b s = .ok (r, n2, s2) →
    r = true ∧ s2 = s + 1 ∧ Ins n b n2 := by
  intro fuel
  induction fuel with
  | zero =>
    intro n b s r n2 s2 h
    cases n
    simp [InsertLoop] at h
  | succ fuel ih =>
    intro n b s r n2 s2 h
    obtain ⟨key, cs, l⟩ := n
    rw [InsertLoop] at h
    try dsimp only at h
    cases hc : cs[lower_bound cs (front b)]? with
    | none =>
      rw [hc] at h
      simp only [Except.ok.injEq, Prod.mk.injEq] at h
      obtain ⟨h1, h2, h3⟩ := h
      subst h1 h2 h3
      refine ⟨rfl, rfl, Ins.append key cs l b ?_⟩
      by_contra hlt
      rw [List.getElem?_eq_getElem (not_le.mp hlt)] at hc
      cases hc
    | some c =>
      rw [hc] at h
      try dsimp only at h
      obtain ⟨hcs, hlen⟩ := getElem?_decomp cs _ c hc
      generalize hL : cs.take (lower_bound cs (front b)) = L at hcs hlen
      generalize hR : cs.drop (lower_bound cs (front b) + 1) = R at hcs
      have hit : lower_bound (L ++ c :: R) (front b) = L.length := by
        rw [← hcs, hlen]
      cases hm : mismatch b c.key with
      | behind => rw [hm] at h; cases h
      | ok m =>
        rw [hm] at h
        try dsimp only at h
        by_cases h0 : m = 0
        · simp only [h0, if_true, Except.ok.injEq, Prod.mk.injEq] at h
          obtain ⟨h1, h2, h3⟩ := h
          subst h1 h2 h3
          refine ⟨rfl, rfl, ?_⟩
          have e1 : cs.insertIdx (lower_bound cs (front b)) (Node.mk b [] true)
              = L ++ Node.mk b [] true :: c :: R := by
            rw [← hlen]
            conv_lhs => rw [hcs]
            exact insertIdx_decomp L _ (c :: R)
          rw [e1]
          conv => arg 1; rw [hcs]
          exact Ins.before key L c R l b hit (h0 ▸ hm)
        · simp only [h0, if_false] at h
          by_cases hle : m ≠ c.key.length ∧ c.key.length < m
          · rw [if_pos hle] at h
            cases h
          · rw [if_neg hle] at h
            have eset : ∀ x, cs.set (lower_bound cs (front b)) x = L ++ x :: R := by
              intro x
              rw [← hlen]
              conv_lhs => rw [hcs]
              exact set_decomp L c x R
            by_cases hsl : m ≠ c.key.length ∧ m = b.length
            · rw [if_pos hsl] at h
              simp only [Except.ok.injEq, Prod.mk.injEq] at h
              obtain ⟨h1, h2, h3⟩ := h
              subst h1 h2 h3
              refine ⟨rfl, rfl, ?_⟩
              rw [eset]
              conv => arg 1; rw [hcs]
              have hlt : m < c.key.length := by
                rcases Nat.lt_or_ge m c.key.length with h | h
                · exact h
                · exact absurd ⟨hsl.1, lt_of_le_of_ne h (Ne.symm hsl.1)⟩ hle
              exact Ins.split_leaf key L c R l b m hit hm h0 hlt hsl.2
            · rw [if_neg hsl] at h
              cases hrec : InsertLoop fuel (if m ≠ c.key.length then split c m else c)
                  (b.drop m) s with
              | error e => rw [hrec] at h; cases h
              | ok res =>
                obtain ⟨r1, c2, s1⟩ := res
                rw [hrec] at h
                simp only [Except.ok.injEq, Prod.mk.injEq] at h
                obtain ⟨h1, h2, h3⟩ := h
                subst h1 h2 h3
                obtain ⟨i1, i2, i3⟩ := ih _ _ _ _ _ _ hrec
                refine ⟨i1, i2, ?_⟩
                rw [eset]
                conv => arg 1; rw [hcs]
                by_cases hne : m ≠ c.key.length
                · rw [if_pos hne] at i3
                  have hlt : m < c.key.length := by
                    rcases Nat.lt_or_ge m c.key.length with h | h
                    · exact h
                    · exact absurd ⟨hne, lt_of_le_of_ne h (Ne.symm hne)⟩ hle
                  have h2 : m ≠ b.length := fun h => hsl ⟨hne, h⟩
                  exact Ins.split_descend key L c R l b m c2 hit hm h0 hlt h2 i3
                · rw [if_neg hne] at i3
                  exact Ins.descend key L c R l b m c2 hit hm h0 (not_not.mp hne) i3

/-! ## The loop counters of the model are large enough -/

/-- The binary search is the same with any number of rounds that is at least the length
of the range: `len` rounds are enough. -/
theorem lower_bound_loop_fuel (cs : List Node) (v : Int) : ∀ (fuel extra first len : Nat),
    len ≤ fuel →
    lower_bound_loop (fuel + extra) cs first len v = lower_bound_loop fuel cs first len v := by
  intro fuel
  induction fuel with
  | zero =>
    intro extra first len h
    have h0 : len = 0 := Nat.le_zero.mp h
    subst h0
    cases extra with
    | zero => rfl
    | succ e => simp [lower_bound_loop]
  | succ fuel ih =>
    intro extra first len h
    rw [Nat.add_right_comm]
    simp only [lower_bound_loop]
    by_cases hlen : len = 0
    · simp [hlen]
    · simp only [hlen, if_false]
      have hhalf : len / 2 < len := Nat.div_lt_self (Nat.pos_of_ne_zero hlen) (by decide)
      cases cs[first + len / 2]? with
      | none => rfl
      | some n =>
        simp only []
        rw [ih extra _ _ (by omega), ih extra _ _ (by omega)]

/-- The loop of `Insert` never runs out of iterations when it is given more of them than
the rest of the key has bytes: every next iteration has consumed at least one byte. -/
theorem InsertLoop_fuel : ∀ (fuel : Nat) (n : Node) (b : List Int) (s : Nat),
    b.length < fuel → InsertLoop fuel n b s ≠ .error .fuel := by
  intro fuel
  induction fuel with
  | zero =>
    intro n b s h
    exact absurd h (Nat.not_lt_zero _)
  | succ fuel ih =>
    intro n b s hlen
    obtain ⟨key, cs, l⟩ := n
    rw [InsertLoop]
    try dsimp only
    cases cs[lower_bound cs (front b)]? with
    | none => intro h; cases h
    | some c =>
      try dsimp only
      cases hm : mismatch b c.key with
      | behind =>
        try dsimp only
        intro h
        cases h
      | ok m =>
        try dsimp only
        have hmb := mismatch_le_left b c.key m hm
        by_cases h0 : m = 0
        · rw [if_pos h0]; intro h; cases h
        · rw [if_neg h0]
          by_cases hle : m ≠ c.key.length ∧ c.key.length < m
          · rw [if_pos hle]; intro h; cases h
          · rw [if_neg hle]
            by_cases hsl : m ≠ c.key.length ∧ m = b.length
            · rw [if_pos hsl]; intro h; cases h
            · rw [if_neg hsl]
              have hlen1 : (b.drop m).length < fuel := by
                rw [List.length_drop]
                omega
              have hrec := ih (if m ≠ c.key.length then split c m else c) (b.drop m) s hlen1
              cases hr : InsertLoop fuel (if m ≠ c.key.length then split c m else c)
                  (b.drop m) s with
              | error e =>
                try dsimp only
                intro h
                rw [hr] at hrec
                simp only [Except.error.injEq] at h
                subst h
                exact hrec rfl
              | ok res =>
                obtain ⟨r1, c2, s1⟩ := res
                intro h
                cases h

/-- The method `Insert` never fails for lack of iterations. -/
theorem Insert_fuel (t : RadixTreeSet) (key : List Int) : t.Insert key ≠ .error .fuel := by
  unfold RadixTreeSet.Insert
  have h := InsertLoop_fuel (key.length + 1) t.root_ key t.size_ (Nat.lt_succ_self _)
  cases hl : InsertLoop (key.length + 1) t.root_ key t.size_ with
  | error e =>
    try dsimp only
    intro h2
    rw [hl] at h
    simp only [Except.error.injEq] at h2
    subst h2
    exact h rfl
  | ok res =>
    obtain ⟨r, n, s⟩ := res
    intro h2
    cases h2

/-! ## Paths and stored keys -/

@[simp] theorem Node.key_mk (k : List Int) (cs : List Node) (l : Bool) :
    (Node.mk k cs l).key = k := rfl

@[simp] theorem Node.children_mk (k : List Int) (cs : List Node) (l : Bool) :
    (Node.mk k cs l).children = cs := rfl

@[simp] theorem Node.is_leaf_mk (k : List Int) (cs : List Node) (l : Bool) :
    (Node.mk k cs l).is_leaf = l := rfl

theorem subtree_eq (c : Node) :
    c.subtree = (c.key, c) :: (below c.children).map (fun e => (c.key ++ e.1, e.2)) := by
  cases c
  simp [Node.subtree]

theorem below_cons (c : Node) (cs : List Node) : below (c :: cs) = c.subtree ++ below cs := by
  simp [below]

theorem below_append (L R : List Node) : below (L ++ R) = below L ++ below R := by
  induction L with
  | nil => simp [below]
  | cons a L ih => simp [below_cons, ih]

theorem stored_nil : stored [] = [] := by
  simp [stored, below]

theorem stored_cons (c : Node) (cs : List Node) :
    stored (c :: cs) = stored_sub c ++ stored cs := by
  simp only [stored, stored_sub, below_cons, subtree_eq, List.filter_append, List.map_append,
    List.filter_cons, List.filter_map, List.map_map]
  cases hl : c.is_leaf <;> simp [Function.comp_def]

theorem stored_append (L R : List Node) : stored (L ++ R) = stored L ++ stored R := by
  simp [stored, below_append]

theorem stored_sub_leaf (b : List Int) : stored_sub (.mk b [] true) = [b] := by
  simp [stored_sub, stored_nil]

theorem stored_sub_split (c : Node) (m : Nat) :
    stored_sub (split c m) = stored_sub c := by
  obtain ⟨k, cs, l⟩ := c
  simp only [stored_sub, split, Node.is_leaf_mk, Node.key_mk, Node.children_mk, stored_cons,
    stored_nil]
  cases l <;> simp [Function.comp_def, ← List.append_assoc]

theorem stored_sub_set_leaf_split (c : Node) (m : Nat) :
    stored_sub (set_leaf (split c m)) = c.key.take m :: stored_sub c := by
  have h := stored_sub_split c m
  simp only [stored_sub, split, set_leaf, Node.is_leaf_mk, Node.key_mk, Node.children_mk] at h ⊢
  simpa using h

/-- The loop of `Insert` changes neither the fragment nor the leaf flag of the node it
starts at, and adds exactly the rest of the key to the keys stored under it. -/
theorem Ins_stored (n : Node) (b : List Int) (n2 : Node) (h : Ins n b n2) :
    n2.key = n.key ∧ n2.is_leaf = n.is_leaf ∧
      ∀ k, k ∈ stored n2.children ↔ k = b ∨ k ∈ stored n.children := by
  induction h with
  | append k cs l b hit =>
    refine ⟨rfl, rfl, fun q => ?_⟩
    simp only [Node.children_mk, stored_append, stored_cons, stored_nil, stored_sub_leaf,
      List.mem_append, List.mem_singleton, List.append_nil]
    tauto
  | before k L c R l b hit hm =>
    refine ⟨rfl, rfl, fun q => ?_⟩
    simp only [Node.children_mk, stored_append, stored_cons, stored_sub_leaf,
      List.mem_append, List.mem_singleton, List.mem_cons, List.singleton_append]
    tauto
  | split_leaf k L c R l b m hit hm h0 h1 h2 =>
    refine ⟨rfl, rfl, fun q => ?_⟩
    have hb : c.key.take m = b := by
      rw [← mismatch_take b c.key m hm (le_of_lt h1), h2, List.take_length]
    simp only [Node.children_mk, stored_append, stored_cons, stored_sub_set_leaf_split, hb,
      List.mem_append, List.mem_cons]
    tauto
  | split_descend k L c R l b m c2 hit hm h0 h1 h2 hrec ih =>
    refine ⟨rfl, rfl, fun q => ?_⟩
    obtain ⟨ik, il, is⟩ := ih
    have hsub : ∀ q, q ∈ stored_sub c2 ↔ q = b ∨ q ∈ stored_sub c := by
      intro q
      rw [← stored_sub_split c m]
      have hk : c2.key = b.take m := by
        rw [ik, mismatch_take b c.key m hm (le_of_lt h1)]
        simp [split]
      have hl2 : c2.is_leaf = (split c m).is_leaf := il
      have hk2 : (split c m).key = b.take m := by rw [← ik, hk]
      simp only [stored_sub, hl2, hk, hk2, List.mem_append, List.mem_map, is]
      constructor
      · rintro (h | ⟨p, (hp | hp), rfl⟩)
        · exact Or.inr (Or.inl h)
        · subst hp
          exact Or.inl (List.take_append_drop m b)
        · exact Or.inr (Or.inr ⟨p, hp, rfl⟩)
      · rintro (h | h | ⟨p, hp, rfl⟩)
        · exact Or.inr ⟨b.drop m, Or.inl rfl, by rw [h, List.take_append_drop]⟩
        · exact Or.inl h
        · exact Or.inr ⟨p, Or.inr hp, rfl⟩
    simp only [Node.children_mk, stored_append, stored_cons, List.mem_append, hsub]
    tauto
  | descend k L c R l b m c2 hit hm h0 h1 hrec ih =>
    refine ⟨rfl, rfl, fun q => ?_⟩
    obtain ⟨ik, il, is⟩ := ih
    have hsub : ∀ q, q ∈ stored_sub c2 ↔ q = b ∨ q ∈ stored_sub c := by
      intro q
      have hk : c.key = b.take m := by
        have := mismatch_take b c.key m hm (le_of_eq h1)
        rw [this, h1, List.take_length]
      simp only [stored_sub, il, ik, hk, List.mem_append, List.mem_map, is]
      constructor
      · rintro (h | ⟨p, (hp | hp), rfl⟩)
        · exact Or.inr (Or.inl h)
        · subst hp
          exact Or.inl (List.take_append_drop m b)
        · exact Or.inr (Or.inr ⟨p, hp, rfl⟩)
      · rintro (h | h | ⟨p, hp, rfl⟩)
        · exact Or.inr ⟨b.drop m, Or.inl rfl, by rw [h, List.take_append_drop]⟩
        · exact Or.inl h
        · exact Or.inr ⟨p, Or.inr hp, rfl⟩
    simp only [Node.children_mk, stored_append, stored_cons, List.mem_append, hsub]
    tauto

/-! ## The sibling lookup on sorted children -/

theorem sib_le (a b : Node) (h : sib a b) : front a.key ≤ front b.key := by
  rcases h with h | ⟨h1, h2⟩
  · exact le_of_lt h
  · rw [h1, h2]

theorem dropWhile_not_lt (v : Int) : ∀ (cs : List Node),
    cs.Pairwise (fun a b => front a.key ≤ front b.key) →
    ∀ x ∈ cs.dropWhile (fun n => node_lt n v), node_lt x v = false
  | [], _, x, hx => by simp at hx
  | a :: t, hs, x, hx => by
    rw [List.pairwise_cons] at hs
    by_cases ha : node_lt a v = true
    · simp only [List.dropWhile_cons, ha, if_true] at hx
      exact dropWhile_not_lt v t hs.2 x hx
    · simp only [List.dropWhile_cons, ha] at hx
      simp only [Bool.false_eq_true, if_false] at hx
      have ha2 : ¬ front a.key < v := by simpa [node_lt] using ha
      rcases List.mem_cons.mp hx with h | h
      · subst h; simpa using ha
      · have := hs.1 x h
        simp only [node_lt, decide_eq_false_iff_not, not_lt]
        exact le_trans (not_lt.mp ha2) this

theorem lower_bound_sorted (v : Int) (cs : List Node)
    (hs : cs.Pairwise (fun a b => front a.key ≤ front b.key)) :
    lower_bound cs v = (cs.takeWhile (fun n => node_lt n v)).length := by
  have h := lower_bound_append v (cs.takeWhile (fun n => node_lt n v))
    (cs.dropWhile (fun n => node_lt n v))
    (fun x hx => List.mem_takeWhile_imp (p := fun n => node_lt n v) hx) (dropWhile_not_lt v cs hs)
  rwa [List.takeWhile_append_dropWhile] at h

theorem takeWhile_length_all (v : Int) : ∀ (cs : List Node),
    cs.length ≤ (cs.takeWhile (fun n => node_lt n v)).length → ∀ x ∈ cs, front x.key < v
  | [], _, x, hx => by simp at hx
  | a :: t, h, x, hx => by
    by_cases ha : node_lt a v = true
    · simp only [List.takeWhile_cons, ha, if_true, List.length_cons, Nat.add_le_add_iff_right] at h
      rcases List.mem_cons.mp hx with h1 | h1
      · subst h1; simpa [node_lt] using ha
      · exact takeWhile_length_all v t h x h1
    · simp [List.takeWhile_cons, ha] at h

theorem takeWhile_length_mid (v : Int) : ∀ (L : List Node) (c : Node) (R : List Node),
    ((L ++ c :: R).takeWhile (fun n => node_lt n v)).length = L.length →
    (∀ x ∈ L, front x.key < v) ∧ v ≤ front c.key
  | [], c, R, h => by
    refine ⟨fun x hx => by simp at hx, ?_⟩
    by_cases hc : node_lt c v = true
    · simp [List.takeWhile_cons, hc] at h
    · simpa [node_lt] using hc
  | a :: L, c, R, h => by
    by_cases ha : node_lt a v = true
    · simp only [List.cons_append, List.takeWhile_cons, ha, if_true, List.length_cons,
        Nat.add_right_cancel_iff] at h
      obtain ⟨h1, h2⟩ := takeWhile_length_mid v L c R h
      refine ⟨fun x hx => ?_, h2⟩
      rcases List.mem_cons.mp hx with h3 | h3
      · subst h3; simpa [node_lt] using ha
      · exact h1 x h3
    · simp [List.takeWhile_cons, ha] at h

theorem pairwise_sib_le (cs : List Node) (hs : cs.Pairwise sib) :
    cs.Pairwise (fun a b => front a.key ≤ front b.key) :=
  hs.imp (fun {a b} h => sib_le a b h)

theorem lookup_end (v : Int) (cs : List Node) (hs : cs.Pairwise sib)
    (hit : cs.length ≤ lower_bound cs v) : ∀ x ∈ cs, front x.key < v := by
  rw [lower_bound_sorted v cs (pairwise_sib_le cs hs)] at hit
  exact takeWhile_length_all v cs hit

theorem lookup_mid (v : Int) (L : List Node) (c : Node) (R : List Node)
    (hs : (L ++ c :: R).Pairwise sib) (hit : lower_bound (L ++ c :: R) v = L.length) :
    (∀ x ∈ L, front x.key < v) ∧ v ≤ front c.key := by
  rw [lower_bound_sorted v _ (pairwise_sib_le _ hs)] at hit
  exact takeWhile_length_mid v L c R hit

/-! ## `Insert` keeps the invariant -/

theorem forall_mem_replace {P : Node → Prop} (L : List Node) (c x : Node) (R : List Node)
    (h : ∀ d ∈ L ++ c :: R, P d) (hx : P x) : ∀ d ∈ L ++ x :: R, P d := by
  intro d hd
  rcases List.mem_append.mp hd with h1 | h1
  · exact h d (List.mem_append_left _ h1)
  · rcases List.mem_cons.mp h1 with h2 | h2
    · subst h2; exact hx
    · exact h d (List.mem_append_right _ (List.mem_cons_of_mem _ h2))

theorem forall_mem_insert {P : Node → Prop} (L : List Node) (x : Node) (R : List Node)
    (h : ∀ d ∈ L ++ R, P d) (hx : P x) : ∀ d ∈ L ++ x :: R, P d := by
  intro d hd
  rcases List.mem_append.mp hd with h1 | h1
  · exact h d (List.mem_append_left _ h1)
  · rcases List.mem_cons.mp h1 with h2 | h2
    · subst h2; exact hx
    · exact h d (List.mem_append_right _ h2)

theorem front_take (s : List Int) (m : Nat) (h0 : m ≠ 0) : front (s.take m) = front s := by
  cases s with
  | nil => simp
  | cons x xs =>
    cases m with
    | zero => exact absurd rfl h0
    | succ m => simp [front]

theorem front_ne_zero (s : List Int) (hs : (0 : Int) ∉ s) (hne : s ≠ []) : front s ≠ 0 := by
  cases s with
  | nil => exact absurd rfl hne
  | cons x xs =>
    intro h
    apply hs
    simp only [front, List.headD_cons] at h
    simp [h]

theorem not_mem_take (s : List Int) (m : Nat) (hs : (0 : Int) ∉ s) : (0 : Int) ∉ s.take m :=
  fun h => hs (List.mem_of_mem_take h)

theorem not_mem_drop (s : List Int) (m : Nat) (hs : (0 : Int) ∉ s) : (0 : Int) ∉ s.drop m :=
  fun h => hs (List.mem_of_mem_drop h)

theorem Good.children_good {n : Node} (h : Good n) : ∀ c ∈ n.children, Good c := by
  cases h with
  | mk k cs l hs hc hg => exact hg

theorem Good.children_ok {n : Node} (h : Good n) : ∀ c ∈ n.children, child_ok c := by
  cases h with
  | mk k cs l hs hc hg => exact hc

theorem Good.children_sorted {n : Node} (h : Good n) : n.children.Pairwise sib := by
  cases h with
  | mk k cs l hs hc hg => exact hs

theorem Good.of_children (n : Node) (hs : n.children.Pairwise sib)
    (hc : ∀ c ∈ n.children, child_ok c) (hg : ∀ c ∈ n.children, Good c) : Good n := by
  obtain ⟨k, cs, l⟩ := n
  exact Good.mk k cs l hs hc hg

theorem good_leaf (b : List Int) : Good (.mk b [] true) :=
  Good.mk b [] true List.Pairwise.nil (fun c hc => by simp at hc) (fun c hc => by simp at hc)

theorem child_ok_leaf (b : List Int) (hb : (0 : Int) ∉ b) : child_ok (.mk b [] true) :=
  ⟨hb, fun _ => ⟨rfl, rfl⟩⟩

theorem good_split (c : Node) (m : Nat) (hg : Good c) (hc : child_ok c)
    (h1 : m < c.key.length) : Good (split c m) := by
  refine Good.mk _ _ _ (List.pairwise_singleton _ _) ?_ ?_
  · intro d hd
    rw [List.mem_singleton] at hd
    subst hd
    refine ⟨not_mem_drop _ _ hc.1, fun h => ?_⟩
    simp only [Node.key_mk, List.drop_eq_nil_iff] at h
    omega
  · intro d hd
    rw [List.mem_singleton] at hd
    subst hd
    exact Good.of_children _ hg.children_sorted hg.children_ok hg.children_good

theorem good_set_leaf (c : Node) (hg : Good c) : Good (set_leaf c) :=
  Good.of_children _ hg.children_sorted hg.children_ok hg.children_good

theorem child_ok_split (c : Node) (m : Nat) (hc : child_ok c) (h0 : m ≠ 0)
    (h1 : m < c.key.length) : child_ok (split c m) ∧ child_ok (set_leaf (split c m)) := by
  have hne : c.key.take m ≠ [] := by
    intro h
    have := congrArg List.length h
    simp only [List.length_take, List.length_nil] at this
    omega
  exact ⟨⟨not_mem_take _ _ hc.1, fun h => absurd h hne⟩,
    ⟨not_mem_take _ _ hc.1, fun h => absurd h hne⟩⟩

/-- Replacing a sibling with a non-empty fragment by a node with the same leading byte
keeps the siblings in order. -/
theorem pairwise_sib_replace (L : List Node) (c c2 : Node) (R : List Node)
    (hs : (L ++ c :: R).Pairwise sib) (hc : c.key ≠ []) (hc2 : c2.key ≠ [])
    (hf : front c2.key = front c.key) : (L ++ c2 :: R).Pairwise sib := by
  rw [List.pairwise_append, List.pairwise_cons] at hs ⊢
  obtain ⟨h1, ⟨h2, h3⟩, h4⟩ := hs
  refine ⟨h1, ⟨fun r hr => ?_, h3⟩, fun a ha x hx => ?_⟩
  · rcases h2 r hr with h | ⟨h, _⟩
    · exact Or.inl (hf ▸ h)
    · exact absurd h hc
  · rcases List.mem_cons.mp hx with h | h
    · subst h
      rcases h4 a ha c (List.mem_cons_self _ _) with h | ⟨_, h⟩
      · exact Or.inl (hf ▸ h)
      · exact absurd h hc
    · exact h4 a ha x (List.mem_cons_of_mem _ h)

/-- A new leaf for the rest `b` of the key is in order before a candidate that shares no
byte with `b`. -/
theorem sib_new_before (b : List Int) (c : Node) (hb : (0 : Int) ∉ b) (hc : child_ok c)
    (hm : mismatch b c.key = .ok 0) (hle : front b ≤ front c.key) :
    sib (.mk b [] true) c := by
  unfold sib
  simp only [Node.key_mk]
  cases b with
  | nil =>
    by_cases hk : c.key = []
    · exact Or.inr ⟨rfl, hk⟩
    · left
      have := front_ne_zero c.key hc.1 hk
      simp only [front, List.headD_nil] at hle ⊢
      exact lt_of_le_of_ne hle (Ne.symm this)
  | cons x xs =>
    left
    have hx : x ≠ 0 := fun h => hb (by simp [h])
    cases hk : c.key with
    | nil =>
      rw [hk] at hle
      simp only [front, List.headD_cons, List.headD_nil] at hle ⊢
      exact lt_of_le_of_ne hle hx
    | cons y ys =>
      rw [hk] at hle hm
      simp only [front, List.headD_cons] at hle ⊢
      refine lt_of_le_of_ne hle ?_
      intro hxy
      simp only [mismatch, hxy, if_true] at hm
      cases hr : mismatch xs ys with
      | behind => rw [hr] at hm; cases hm
      | ok m1 => rw [hr] at hm; simp [Mis.succ] at hm

theorem Ins_key (n : Node) (b : List Int) (n2 : Node) (h : Ins n b n2) : n2.key = n.key :=
  (Ins_stored n b n2 h).1

theorem Ins_good (n : Node) (b : List Int) (n2 : Node) (h : Ins n b n2) :
    Good n → (0 : Int) ∉ b → Good n2 := by
  induction h with
  | append k cs l b hit =>
    intro hg hb
    have hlt := lookup_end (front b) cs hg.children_sorted hit
    refine Good.mk _ _ _ ?_ ?_ ?_
    · rw [List.pairwise_append]
      refine ⟨hg.children_sorted, List.pairwise_singleton _ _, fun a ha x hx => ?_⟩
      rw [List.mem_singleton] at hx
      subst hx
      exact Or.inl (hlt a ha)
    · exact forall_mem_insert cs _ [] (by simpa using hg.children_ok) (child_ok_leaf b hb)
    · exact forall_mem_insert cs _ [] (by simpa using hg.children_good) (good_leaf b)
  | before k L c R l b hit hm =>
    intro hg hb
    have hs := hg.children_sorted
    simp only [Node.children_mk] at hs
    obtain ⟨hlt, hle⟩ := lookup_mid (front b) L c R hs hit
    have hcok : child_ok c := hg.children_ok c (List.mem_append_right _ (List.mem_cons_self _ _))
    have hnc := sib_new_before b c hb hcok hm hle
    refine Good.mk _ _ _ ?_ ?_ ?_
    · rw [List.pairwise_append, List.pairwise_cons] at hs
      obtain ⟨h1, ⟨h2, h3⟩, h4⟩ := hs
      rw [List.pairwise_append, List.pairwise_cons, List.pairwise_cons]
      refine ⟨h1, ⟨fun r hr => ?_, h2, h3⟩, fun a ha x hx => ?_⟩
      · rcases List.mem_cons.mp hr with h | h
        · subst h; exact hnc
        · rcases h2 r h with h5 | ⟨h5, h6⟩
          · rcases hnc with h7 | ⟨h7, _⟩
            · exact Or.inl (lt_trans h7 h5)
            · left
              simp only [Node.key_mk] at h7 ⊢
              rw [h7] at hle ⊢
              exact lt_of_le_of_lt hle h5
          · rcases hnc with h7 | ⟨h7, _⟩
            · left
              rw [h5] at h7
              rw [h6]
              exact h7
            · exact Or.inr ⟨h7, h6⟩
      · rcases List.mem_cons.mp hx with h | h
        · subst h
          exact Or.inl (hlt a ha)
        · exact h4 a ha x h
    · exact forall_mem_insert L _ (c :: R) hg.children_ok (child_ok_leaf b hb)
    · exact forall_mem_insert L _ (c :: R) hg.children_good (good_leaf b)
  | split_leaf k L c R l b m hit hm h0 h1 h2 =>
    intro hg hb
    have hs := hg.children_sorted
    simp only [Node.children_mk] at hs
    have hcok : child_ok c := hg.children_ok c (List.mem_append_right _ (List.mem_cons_self _ _))
    have hcg : Good c := hg.children_good c (List.mem_append_right _ (List.mem_cons_self _ _))
    have hck : c.key ≠ [] := by
      intro h; rw [h] at h1; simp at h1
    obtain ⟨ho1, ho2⟩ := child_ok_split c m hcok h0 h1
    refine Good.mk _ _ _ ?_ ?_ ?_
    · refine pairwise_sib_replace L c _ R hs hck ?_ ?_
      · intro h; exact absurd h (fun h => by
          have := congrArg List.length h
          simp only [set_leaf, split, Node.key_mk, List.length_take, List.length_nil] at this
          omega)
      · simp only [set_leaf, split, Node.key_mk]
        exact front_take c.key m h0
    · exact forall_mem_replace L c _ R hg.children_ok (ho2)
    · exact forall_mem_replace L c _ R hg.children_good (good_set_leaf _ (good_split c m hcg hcok h1))
  | split_descend k L c R l b m c2 hit hm h0 h1 h2 hrec ih =>
    intro hg hb
    have hs := hg.children_sorted
    simp only [Node.children_mk] at hs
    have hcok : child_ok c := hg.children_ok c (List.mem_append_right _ (List.mem_cons_self _ _))
    have hcg : Good c := hg.children_good c (List.mem_append_right _ (List.mem_cons_self _ _))
    have hck : c.key ≠ [] := by
      intro h; rw [h] at h1; simp at h1
    obtain ⟨ho1, ho2⟩ := child_ok_split c m hcok h0 h1
    have hk2 : c2.key = c.key.take m := by
      rw [Ins_key _ _ _ hrec]; rfl
    have hne2 : c2.key ≠ [] := by
      rw [hk2]
      intro h
      have := congrArg List.length h
      simp only [List.length_take, List.length_nil] at this
      omega
    have hg2 : Good c2 := ih (good_split c m hcg hcok h1) (not_mem_drop b m hb)
    refine Good.mk _ _ _ ?_ ?_ ?_
    · refine pairwise_sib_replace L c _ R hs hck hne2 ?_
      rw [hk2]
      exact front_take c.key m h0
    · exact forall_mem_replace L c _ R hg.children_ok (⟨hk2 ▸ not_mem_take _ _ hcok.1, fun h => absurd h hne2⟩)
    · exact forall_mem_replace L c _ R hg.children_good (hg2)
  | descend k L c R l b m c2 hit hm h0 h1 hrec ih =>
    intro hg hb
    have hs := hg.children_sorted
    simp only [Node.children_mk] at hs
    have hcok : child_ok c := hg.children_ok c (List.mem_append_right _ (List.mem_cons_self _ _))
    have hcg : Good c := hg.children_good c (List.mem_append_right _ (List.mem_cons_self _ _))
    have hck : c.key ≠ [] := by
      intro h; rw [h] at h1; simp at h1; exact h0 h1
    have hk2 : c2.key = c.key := Ins_key _ _ _ hrec
    have hg2 : Good c2 := ih hcg (not_mem_drop b m hb)
    refine Good.mk _ _ _ ?_ ?_ ?_
    · exact pairwise_sib_replace L c _ R hs hck (hk2 ▸ hck) (by rw [hk2])
    · exact forall_mem_replace L c _ R hg.children_ok (⟨hk2 ▸ hcok.1, fun h => absurd (hk2 ▸ h) hck⟩)
    · exact forall_mem_replace L c _ R hg.children_good (hg2)

/-! ## `Insert` returns on keys without a zero byte -/

theorem InsertLoop_defined : ∀ (fuel : Nat) (n : Node) (b : List Int) (s : Nat),
    Good n → (0 : Int) ∉ b → b.length < fuel →
    ∃ n2, InsertLoop fuel n b s = .ok (true, n2, s + 1) := by
  intro fuel
  induction fuel with
  | zero =>
    intro n b s _ _ h
    exact absurd h (Nat.not_lt_zero _)
  | succ fuel ih =>
    intro n b s hg hb hlen
    obtain ⟨key, cs, l⟩ := n
    rw [InsertLoop]
    try dsimp only
    cases hc : cs[lower_bound cs (front b)]? with
    | none => exact ⟨_, rfl⟩
    | some c =>
      try dsimp only
      obtain ⟨hcs, _⟩ := getElem?_decomp cs _ c hc
      have hmem : c ∈ cs := by
        rw [hcs]
        exact List.mem_append_right _ (List.mem_cons_self _ _)
      have hcok : child_ok c := hg.children_ok c hmem
      have hcg : Good c := hg.children_good c hmem
      obtain ⟨m, hm, hmle⟩ := mismatch_zero_free b c.key hb
      rw [hm]
      try dsimp only
      by_cases h0 : m = 0
      · rw [if_pos h0]
        exact ⟨_, rfl⟩
      · rw [if_neg h0]
        have hle : ¬ (m ≠ c.key.length ∧ c.key.length < m) := fun h => absurd hmle (not_le.mpr h.2)
        rw [if_neg hle]
        by_cases hsl : m ≠ c.key.length ∧ m = b.length
        · rw [if_pos hsl]
          exact ⟨_, rfl⟩
        · rw [if_neg hsl]
          have hg1 : Good (if m ≠ c.key.length then split c m else c) := by
            by_cases hne : m ≠ c.key.length
            · rw [if_pos hne]
              exact good_split c m hcg hcok (lt_of_le_of_ne hmle hne)
            · rw [if_neg hne]
              exact hcg
          have hlen1 : (b.drop m).length < fuel := by
            have hmb := mismatch_le_left b c.key m hm
            rw [List.length_drop]
            omega
          obtain ⟨c2, hc2⟩ := ih _ (b.drop m) s hg1 (not_mem_drop b m hb) hlen1
          rw [hc2]
          exact ⟨_, rfl⟩

/-- On a tree that satisfies the invariant, `Insert` of a key without a zero byte
returns `true`, counts the key, keeps the invariant and adds exactly the key to the
stored keys. -/
theorem Insert_good (t : RadixTreeSet) (key : List Int) (hg : Good t.root_)
    (hk : (0 : Int) ∉ key) :
    ∃ t2, t.Insert key = .ok (true, t2) ∧ Good t2.root_ ∧ t2.size_ = t.size_ + 1 ∧
      ∀ q, q ∈ stored t2.root_.children ↔ q = key ∨ q ∈ stored t.root_.children := by
  obtain ⟨n2, h⟩ := InsertLoop_defined (key.length + 1) t.root_ key t.size_ hg hk
    (Nat.lt_succ_self _)
  obtain ⟨_, _, hins⟩ := InsertLoop_ok _ _ _ _ _ _ _ h
  refine ⟨⟨n2, t.size_ + 1⟩, ?_, Ins_good _ _ _ hins hg hk, rfl, (Ins_stored _ _ _ hins).2.2⟩
  simp [RadixTreeSet.Insert, h]

/-- On every run on which `Insert` returns, it returns `true`, counts the key and adds
exactly the key to the stored keys. -/
theorem Insert_ok (t : RadixTreeSet) (key : List Int) (r : Bool) (t2 : RadixTreeSet)
    (h : t.Insert key = .ok (r, t2)) :
    r = true ∧ t2.size_ = t.size_ + 1 ∧ Ins t.root_ key t2.root_ := by
  unfold RadixTreeSet.Insert at h
  cases hl : InsertLoop (key.length + 1) t.root_ key t.size_ with
  | error e => rw [hl] at h; cases h
  | ok res =>
    obtain ⟨r1, n1, s1⟩ := res
    rw [hl] at h
    simp only [Except.ok.injEq, Prod.mk.injEq] at h
    obtain ⟨h1, h2⟩ := h
    subst h1 h2
    exact InsertLoop_ok _ _ _ _ _ _ _ hl

theorem good_empty : Good RadixTreeSet.empty.root_ :=
  Good.mk [] [] false List.Pairwise.nil (fun c hc => by simp at hc) (fun c hc => by simp at hc)

theorem insertAll_append_ok : ∀ (keys : List (List Int)) (t t2 : RadixTreeSet),
    insertAll t keys = .ok t2 →
    t2.size_ = t.size_ + keys.length ∧
      ∀ q, q ∈ stored t2.root_.children ↔ q ∈ keys ∨ q ∈ stored t.root_.children
  | [], t, t2, h => by
    simp only [insertAll, Except.ok.injEq] at h
    subst h
    simp
  | k :: ks, t, t2, h => by
    rw [insertAll] at h
    cases hi : t.Insert k with
    | error e => rw [hi] at h; cases h
    | ok res =>
      obtain ⟨r, t1⟩ := res
      rw [hi] at h
      try dsimp only at h
      obtain ⟨_, hs, hins⟩ := Insert_ok t k r t1 hi
      obtain ⟨h1, h2⟩ := insertAll_append_ok ks t1 t2 h
      refine ⟨by rw [h1, hs, List.length_cons]; omega, fun q => ?_⟩
      rw [h2, (Ins_stored _ _ _ hins).2.2, List.mem_cons]
      tauto

theorem insertAll_good : ∀ (keys : List (List Int)) (t : RadixTreeSet),
    Good t.root_ → (∀ k ∈ keys, (0 : Int) ∉ k) →
    ∃ t2, insertAll t keys = .ok t2 ∧ Good t2.root_
  | [], t, hg, _ => ⟨t, rfl, hg⟩
  | k :: ks, t, hg, hk => by
    obtain ⟨t1, h1, hg1, _, _⟩ := Insert_good t k hg (hk k (List.mem_cons_self _ _))
    obtain ⟨t2, h2, hg2⟩ := insertAll_good ks t1 hg1
      (fun q hq => hk q (List.mem_cons_of_mem _ hq))
    refine ⟨t2, ?_, hg2⟩
    rw [insertAll, h1]
    exact h2

/-! ## `Find` on a tree that satisfies the invariant -/

theorem FindAt_end : ∀ (cs : List Node) (i : Nat) (b : List Int), cs.length ≤ i →
    FindAt cs i b = .ok false
  | [], _, _, _ => by simp [FindAt]
  | c :: cs, 0, _, h => by simp at h
  | c :: cs, i + 1, b, h => by
    rw [FindAt]
    exact FindAt_end cs i b (by simpa using h)

theorem FindAt_mid (L : List Node) (c : Node) (R : List Node) (b : List Int) :
    FindAt (L ++ c :: R) L.length b = FindAt (c :: R) 0 b := by
  induction L with
  | nil => rfl
  | cons a L ih =>
    rw [List.cons_append, List.length_cons, FindAt]
    exact ih

theorem mem_stored_iff (q : List Int) : ∀ (cs : List Node),
    q ∈ stored cs ↔ ∃ c ∈ cs, q ∈ stored_sub c
  | [] => by simp [stored_nil]
  | a :: cs => by
    rw [stored_cons, List.mem_append, mem_stored_iff q cs]
    simp

theorem stored_sub_prefix (c : Node) (k : List Int) (h : k ∈ stored_sub c) :
    ∃ p, k = c.key ++ p := by
  unfold stored_sub at h
  rcases List.mem_append.mp h with h1 | h1
  · by_cases hl : c.is_leaf = true
    · rw [if_pos hl, List.mem_singleton] at h1
      exact ⟨[], by simp [h1]⟩
    · rw [if_neg hl] at h1
      simp at h1
  · obtain ⟨p, _, hp⟩ := List.mem_map.mp h1
    exact ⟨p, hp.symm⟩

theorem stored_sub_empty (c : Node) (hc : child_ok c) (hk : c.key = []) :
    stored_sub c = [[]] := by
  obtain ⟨h1, h2⟩ := hc.2 hk
  simp [stored_sub, h1, h2, hk, stored_nil]

theorem stored_sub_front (c : Node) (hc : child_ok c) (k : List Int) (h : k ∈ stored_sub c) :
    front k = front c.key := by
  by_cases hk : c.key = []
  · rw [stored_sub_empty c hc hk, List.mem_singleton] at h
    rw [h, hk]
  · obtain ⟨p, hp⟩ := stored_sub_prefix c k h
    rw [hp]
    cases hck : c.key with
    | nil => exact absurd hck hk
    | cons x xs => simp [front]

theorem front_drop_append (s p : List Int) (m : Nat) (hm : m < s.length) :
    front ((s ++ p).drop m) = front (s.drop m) := by
  rw [List.drop_append_of_le_length (le_of_lt hm)]
  cases hd : s.drop m with
  | nil =>
    have := congrArg List.length hd
    simp only [List.length_drop, List.length_nil] at this
    omega
  | cons x xs => simp [front]

/-- The body of the loop of `Find` at the candidate `c`, given that the loop is right on
the nodes under `c`. -/
theorem FindAt_zero_stored (c : Node) (R : List Node) (q : List Int) (hq : (0 : Int) ∉ q)
    (ihc : ∀ p, (0 : Int) ∉ p → FindLoop c p = .ok (decide (p ∈ stored c.children))) :
    FindAt (c :: R) 0 q = .ok (decide (q ∈ stored_sub c)) := by
  obtain ⟨m, hm, hmle⟩ := mismatch_zero_free q c.key hq
  have hmq := mismatch_le_left q c.key m hm
  have htake := mismatch_take q c.key m hm hmle
  rw [FindAt, hm]
  try dsimp only
  by_cases hne : m ≠ c.key.length
  · rw [if_pos hne]
    have hlt : m < c.key.length := lt_of_le_of_ne hmle hne
    have hnot : q ∉ stored_sub c := by
      intro hin
      obtain ⟨p, hp⟩ := stored_sub_prefix c q hin
      have hlq : m < q.length := by
        rw [hp, List.length_append]
        omega
      have hf := mismatch_front q c.key m hm hmle hlq
      apply hf
      rw [hp]
      exact front_drop_append c.key p m hlt
    simp [hnot]
  · rw [if_neg hne]
    have he : m = c.key.length := not_not.mp hne
    have hq2 : q = c.key ++ q.drop m := by
      have h1 : q.take m = c.key := by rw [htake, he, List.take_length]
      conv_lhs => rw [← List.take_append_drop m q, h1]
    by_cases hfl : m = q.length ∧ c.is_leaf = true
    · rw [if_pos hfl]
      have hin : q ∈ stored_sub c := by
        have hqk : q = c.key := by
          have hd : q.drop m = [] := by
            rw [List.drop_eq_nil_iff]
            omega
          rw [hd, List.append_nil] at hq2
          exact hq2
        unfold stored_sub
        rw [if_pos hfl.2, hqk]
        simp
      simp [hin]
    · rw [if_neg hfl, ihc (q.drop m) (not_mem_drop q m hq)]
      have hiff : q.drop m ∈ stored c.children ↔ q ∈ stored_sub c := by
        unfold stored_sub
        rw [List.mem_append, List.mem_map]
        constructor
        · intro h
          exact Or.inr ⟨q.drop m, h, hq2.symm⟩
        · rintro (h | ⟨p, hp, hpq⟩)
          · exfalso
            by_cases hl : c.is_leaf = true
            · rw [if_pos hl, List.mem_singleton] at h
              apply hfl
              refine ⟨?_, hl⟩
              rw [he, h]
            · rw [if_neg hl] at h
              simp at h
          · have : q.drop m = p := by
              rw [← hpq, he, List.drop_left]
            rw [this]
            exact hp
      rw [decide_eq_decide.mpr hiff]

/-- On a tree that satisfies the invariant, `Find` of a key without a zero byte returns,
and returns whether the key is stored. -/
theorem FindLoop_stored (n : Node) (hg : Good n) :
    ∀ q, (0 : Int) ∉ q → FindLoop n q = .ok (decide (q ∈ stored n.children)) := by
  induction hg with
  | mk k cs l hs hc hg ih =>
    intro q hq
    rw [FindLoop]
    simp only [Node.children_mk]
    by_cases hend : cs.length ≤ lower_bound cs (front q)
    · rw [FindAt_end _ _ _ hend]
      have hlt := lookup_end (front q) cs hs hend
      have hnot : q ∉ stored cs := by
        intro hin
        obtain ⟨d, hd, hqd⟩ := (mem_stored_iff q cs).mp hin
        have := stored_sub_front d (hc d hd) q hqd
        have h2 := hlt d hd
        rw [this] at h2
        exact lt_irrefl _ h2
      simp [hnot]
    · have hi : lower_bound cs (front q) < cs.length := not_le.mp hend
      obtain ⟨hcs, hlen⟩ := getElem?_decomp cs _ _ (List.getElem?_eq_getElem hi)
      generalize cs[lower_bound cs (front q)] = c at hcs
      generalize hL : cs.take (lower_bound cs (front q)) = L at hcs hlen
      generalize hR : cs.drop (lower_bound cs (front q) + 1) = R at hcs
      have hit : lower_bound cs (front q) = L.length := hlen.symm
      rw [hit]
      clear hL hR hlen hi hend
      subst hcs
      obtain ⟨hlt, hle⟩ := lookup_mid (front q) L c R hs hit
      have hcin : c ∈ L ++ c :: R := List.mem_append_right _ (List.mem_cons_self _ _)
      rw [FindAt_mid, FindAt_zero_stored c R q hq (ih c hcin)]
      have hiff : q ∈ stored_sub c ↔ q ∈ stored (L ++ c :: R) := by
        rw [mem_stored_iff]
        constructor
        · intro h
          exact ⟨c, hcin, h⟩
        · rintro ⟨d, hd, hqd⟩
          have hfd := stored_sub_front d (hc d hd) q hqd
          rcases List.mem_append.mp hd with h1 | h1
          · have h2 := hlt d h1
            rw [hfd] at h2
            exact absurd h2 (lt_irrefl _)
          · rcases List.mem_cons.mp h1 with h2 | h2
            · rw [← h2]; exact hqd
            · rw [List.pairwise_append, List.pairwise_cons] at hs
              rcases hs.2.1.1 d h2 with h3 | ⟨h3, h4⟩
              · rw [← hfd] at h3
                exact absurd (lt_of_le_of_lt hle h3) (lt_irrefl _)
              · rw [stored_sub_empty d (hc d hd) h4] at hqd
                rw [stored_sub_empty c (hc c hcin) h3]
                exact hqd
      rw [decide_eq_decide.mpr hiff]

/-! ## Induction over a tree, and what `Find` can return on any tree -/

theorem Node.induction {P : Node → Prop}
    (h : ∀ (k : List Int) (cs : List Node) (l : Bool), (∀ c ∈ cs, P c) → P (.mk k cs l)) :
    ∀ n, P n
  | .mk k cs l => h k cs l (fun c _ => Node.induction h c)
termination_by n => sizeOf n
decreasing_by
  simp_wf
  have := List.sizeOf_lt_of_mem ‹c ∈ cs›
  omega

theorem FindAt_true (cs : List Node) (q : List Int) : ∀ (L : List Node) (i : Nat),
    FindAt L i q = .ok true → (∀ c ∈ L, c ∈ cs) →
    ∃ c ∈ cs, FindAt [c] 0 q = .ok true
  | [], _, h, _ => by simp [FindAt] at h
  | c :: L, 0, h, hsub => by
    refine ⟨c, hsub c (List.mem_cons_self _ _), ?_⟩
    rw [FindAt] at h ⊢
    exact h
  | c :: L, i + 1, h, hsub => by
    rw [FindAt] at h
    exact FindAt_true cs q L i h (fun d hd => hsub d (List.mem_cons_of_mem _ hd))

/-- Whatever the tree and the key: when `Find` returns `true`, the key is the path of a
node marked as a leaf. -/
theorem FindLoop_sound : ∀ (n : Node) (q : List Int), FindLoop n q = .ok true →
    q ∈ stored n.children := by
  intro n
  induction n using Node.induction with
  | h k cs l ih =>
    intro q h
    rw [FindLoop] at h
    obtain ⟨c, hc, hb⟩ := FindAt_true cs q cs _ h (fun c hc => hc)
    rw [Node.children_mk, mem_stored_iff]
    refine ⟨c, hc, ?_⟩
    rw [FindAt] at hb
    cases hm : mismatch q c.key with
    | behind => rw [hm] at hb; cases hb
    | ok m =>
      rw [hm] at hb
      try dsimp only at hb
      by_cases hne : m ≠ c.key.length
      · rw [if_pos hne] at hb
        cases hb
      · rw [if_neg hne] at hb
        have he : m = c.key.length := not_not.mp hne
        have htake := mismatch_take q c.key m hm (le_of_eq he)
        have hq2 : q = c.key ++ q.drop m := by
          have h1 : q.take m = c.key := by rw [htake, he, List.take_length]
          conv_lhs => rw [← List.take_append_drop m q, h1]
        unfold stored_sub
        rw [List.mem_append]
        by_cases hfl : m = q.length ∧ c.is_leaf = true
        · left
          rw [if_pos hfl.2, List.mem_singleton]
          have hd : q.drop m = [] := by
            rw [List.drop_eq_nil_iff]
            omega
          rw [hd, List.append_nil] at hq2
          exact hq2
        · rw [if_neg hfl] at hb
          right
          rw [List.mem_map]
          exact ⟨q.drop m, ih c hc _ hb, hq2.symm⟩

/-! ## Properties of every node -/

theorem all_below_nil (P : Node → Prop) : all_below P [] := by
  intro e he
  simp [below] at he

theorem all_below_append (P : Node → Prop) (L R : List Node) :
    all_below P (L ++ R) ↔ all_below P L ∧ all_below P R := by
  unfold all_below
  rw [below_append]
  simp only [List.mem_append]
  constructor
  · intro h
    exact ⟨fun e he => h e (Or.inl he), fun e he => h e (Or.inr he)⟩
  · rintro ⟨h1, h2⟩ e (he | he)
    · exact h1 e he
    · exact h2 e he

theorem all_below_cons (P : Node → Prop) (c : Node) (R : List Node) :
    all_below P (c :: R) ↔ P c ∧ all_below P c.children ∧ all_below P R := by
  unfold all_below
  rw [below_cons, subtree_eq]
  simp only [List.mem_append, List.mem_cons, List.mem_map]
  constructor
  · intro h
    refine ⟨h (c.key, c) (Or.inl (Or.inl rfl)), fun e he => ?_, fun e he => h e (Or.inr he)⟩
    exact h (c.key ++ e.1, e.2) (Or.inl (Or.inr ⟨e, he, rfl⟩))
  · rintro ⟨h1, h2, h3⟩ e ((he | ⟨d, hd, he⟩) | he)
    · rw [he]; exact h1
    · rw [← he]; exact h2 d hd
    · exact h3 e he

theorem all_below_single (P : Node → Prop) (c : Node) :
    all_below P [c] ↔ P c ∧ all_below P c.children := by
  rw [all_below_cons]
  simp [all_below_nil]

theorem all_below_mid (P : Node → Prop) (L : List Node) (c : Node) (R : List Node) :
    all_below P (L ++ c :: R) ↔
      all_below P L ∧ P c ∧ all_below P c.children ∧ all_below P R := by
  rw [all_below_append, all_below_cons]

/-- On every run, the loop of `Insert` leaves an empty fragment only on leaves without
children. -/
theorem Ins_fragment_ok (n : Node) (b : List Int) (n2 : Node) (h : Ins n b n2) :
    all_below fragment_ok n.children → all_below fragment_ok n2.children := by
  induction h with
  | append k cs l b hit =>
    intro h
    simp only [Node.children_mk] at h ⊢
    rw [all_below_append, all_below_single]
    exact ⟨h, Or.inr ⟨rfl, rfl⟩, all_below_nil _⟩
  | before k L c R l b hit hm =>
    intro h
    simp only [Node.children_mk] at h ⊢
    rw [all_below_mid] at h
    rw [all_below_append, all_below_cons, all_below_cons]
    exact ⟨h.1, Or.inr ⟨rfl, rfl⟩, all_below_nil _, h.2⟩
  | split_leaf k L c R l b m hit hm h0 h1 h2 =>
    intro h
    simp only [Node.children_mk] at h ⊢
    rw [all_below_mid] at h ⊢
    have ht : c.key.take m ≠ [] := by
      intro he
      have := congrArg List.length he
      simp only [List.length_take, List.length_nil] at this
      omega
    have hd : c.key.drop m ≠ [] := by
      intro he
      have := congrArg List.length he
      simp only [List.length_drop, List.length_nil] at this
      omega
    refine ⟨h.1, Or.inl ht, ?_, h.2.2.2⟩
    simp only [set_leaf, split, Node.children_mk]
    rw [all_below_single]
    exact ⟨Or.inl hd, h.2.2.1⟩
  | split_descend k L c R l b m c2 hit hm h0 h1 h2 hrec ih =>
    intro h
    simp only [Node.children_mk] at h ⊢
    rw [all_below_mid] at h ⊢
    have ht : c.key.take m ≠ [] := by
      intro he
      have := congrArg List.length he
      simp only [List.length_take, List.length_nil] at this
      omega
    have hd : c.key.drop m ≠ [] := by
      intro he
      have := congrArg List.length he
      simp only [List.length_drop, List.length_nil] at this
      omega
    have hk2 : c2.key = c.key.take m := by
      rw [Ins_key _ _ _ hrec]; rfl
    refine ⟨h.1, Or.inl (hk2 ▸ ht), ih ?_, h.2.2.2⟩
    simp only [split, Node.children_mk]
    rw [all_below_single]
    exact ⟨Or.inl hd, h.2.2.1⟩
  | descend k L c R l b m c2 hit hm h0 h1 hrec ih =>
    intro h
    simp only [Node.children_mk] at h ⊢
    rw [all_below_mid] at h ⊢
    have hk2 : c2.key = c.key := Ins_key _ _ _ hrec
    have hck : c.key ≠ [] := by
      intro he
      rw [he] at h1
      exact h0 h1
    exact ⟨h.1, Or.inl (hk2 ▸ hck), ih h.2.2.1, h.2.2.2⟩

/-- On every run, the loop of `Insert` adds at least one node. -/
theorem Ins_count (n : Node) (b : List Int) (n2 : Node) (h : Ins n b n2) :
    (below n.children).length < (below n2.children).length := by
  induction h with
  | append k cs l b hit =>
    simp [below_append, below_cons, subtree_eq]
  | before k L c R l b hit hm =>
    simp only [Node.children_mk, below_append, below_cons, subtree_eq, List.length_append,
      List.length_cons, List.length_map]
    omega
  | split_leaf k L c R l b m hit hm h0 h1 h2 =>
    simp [below_append, below_cons, subtree_eq, set_leaf, split, below]
  | split_descend k L c R l b m c2 hit hm h0 h1 h2 hrec ih =>
    simp only [Node.children_mk, below_append, below_cons, subtree_eq, List.length_append,
      List.length_cons, List.length_map] at ih ⊢
    simp only [split, Node.children_mk, below_cons, subtree_eq, List.length_append,
      List.length_cons, List.length_map, below, List.length_nil] at ih
    omega
  | descend k L c R l b m c2 hit hm h0 h1 hrec ih =>
    simp only [Node.children_mk, below_append, below_cons, subtree_eq, List.length_append,
      List.length_cons, List.length_map] at ih ⊢
    omega

/-! ## Strictly ascending siblings -/

theorem mem_stored_sub_of_children (c : Node) (p : List Int) (h : p ∈ stored c.children) :
    c.key ++ p ∈ stored_sub c := by
  unfold stored_sub
  exact List.mem_append_right _ (List.mem_map.mpr ⟨p, h, rfl⟩)

theorem mem_stored_mid (L : List Node) (c : Node) (R : List Node) (q : List Int)
    (h : q ∈ stored_sub c) : q ∈ stored (L ++ c :: R) :=
  (mem_stored_iff q _).mpr ⟨c, List.mem_append_right _ (List.mem_cons_self _ _), h⟩

theorem strict_siblings_replace (k k2 : List Int) (l l2 : Bool) (L : List Node) (c c2 : Node)
    (R : List Node) (hf : front c2.key = front c.key)
    (h : strict_siblings (.mk k (L ++ c :: R) l)) :
    strict_siblings (.mk k2 (L ++ c2 :: R) l2) := by
  unfold strict_siblings at h ⊢
  simp only [Node.children_mk, List.map_append, List.map_cons] at h ⊢
  rw [hf]
  exact h

theorem Ins_strict (n : Node) (b : List Int) (n2 : Node) (h : Ins n b n2) :
    Good n → (0 : Int) ∉ b → b ∉ stored n.children →
    strict_siblings n → all_below strict_siblings n.children →
    strict_siblings n2 ∧ all_below strict_siblings n2.children := by
  induction h with
  | append k cs l b hit =>
    intro hg hb _ hs ha
    have hlt := lookup_end (front b) cs hg.children_sorted hit
    simp only [Node.children_mk] at ha ⊢
    constructor
    · unfold strict_siblings at hs ⊢
      simp only [Node.children_mk, List.map_append, List.map_cons, List.map_nil] at hs ⊢
      rw [List.pairwise_append]
      refine ⟨hs, List.pairwise_singleton _ _, fun x hx y hy => ?_⟩
      rw [List.mem_singleton] at hy
      obtain ⟨d, hd, rfl⟩ := List.mem_map.mp hx
      rw [hy]
      exact hlt d hd
    · rw [all_below_append, all_below_single]
      refine ⟨ha, ?_, all_below_nil _⟩
      simp [strict_siblings]
  | before k L c R l b hit hm =>
    intro hg hb hns hs ha
    have hso := hg.children_sorted
    simp only [Node.children_mk] at hso ha hns ⊢
    obtain ⟨hlt, hle⟩ := lookup_mid (front b) L c R hso hit
    have hcok : child_ok c := hg.children_ok c (List.mem_append_right _ (List.mem_cons_self _ _))
    have hvc : front b < front c.key := by
      rcases sib_new_before b c hb hcok hm hle with h | ⟨h1, h2⟩
      · exact h
      · exfalso
        apply hns
        apply mem_stored_mid
        simp only [Node.key_mk] at h1
        rw [stored_sub_empty c hcok h2, h1]
        simp
    constructor
    · unfold strict_siblings at hs ⊢
      simp only [Node.children_mk, List.map_append, List.map_cons, Node.key_mk] at hs ⊢
      rw [List.pairwise_append, List.pairwise_cons] at hs
      obtain ⟨h1, ⟨h2, h3⟩, h4⟩ := hs
      rw [List.pairwise_append, List.pairwise_cons, List.pairwise_cons]
      refine ⟨h1, ⟨fun y hy => ?_, h2, h3⟩, fun x hx y hy => ?_⟩
      · rcases List.mem_cons.mp hy with h | h
        · rw [h]; exact hvc
        · exact lt_trans hvc (h2 y h)
      · rcases List.mem_cons.mp hy with h | h
        · obtain ⟨d, hd, rfl⟩ := List.mem_map.mp hx
          rw [h]
          exact hlt d hd
        · exact h4 x hx y h
    · rw [all_below_mid] at ha
      rw [all_below_append, all_below_cons, all_below_cons]
      refine ⟨ha.1, ?_, all_below_nil _, ha.2⟩
      simp [strict_siblings]
  | split_leaf k L c R l b m hit hm h0 h1 h2 =>
    intro hg hb hns hs ha
    simp only [Node.children_mk] at ha ⊢
    rw [all_below_mid] at ha
    constructor
    · refine strict_siblings_replace k k l l L c _ R ?_ hs
      simp only [set_leaf, split, Node.key_mk]
      exact front_take c.key m h0
    · rw [all_below_mid]
      refine ⟨ha.1, ?_, ?_, ha.2.2.2⟩
      · simp [strict_siblings, set_leaf, split]
      · simp only [set_leaf, split, Node.children_mk]
        rw [all_below_single]
        exact ⟨ha.2.1, ha.2.2.1⟩
  | split_descend k L c R l b m c2 hit hm h0 h1 h2 hrec ih =>
    intro hg hb hns hs ha
    simp only [Node.children_mk] at ha hns ⊢
    rw [all_below_mid] at ha
    have hcok : child_ok c := hg.children_ok c (List.mem_append_right _ (List.mem_cons_self _ _))
    have hcg : Good c := hg.children_good c (List.mem_append_right _ (List.mem_cons_self _ _))
    have hk2 : c2.key = c.key.take m := by
      rw [Ins_key _ _ _ hrec]; rfl
    have hns2 : b.drop m ∉ stored (split c m).children := by
      intro hin
      apply hns
      apply mem_stored_mid
      rw [← stored_sub_split c m]
      have := mem_stored_sub_of_children (split c m) _ hin
      have hk : (split c m).key = b.take m := by
        rw [mismatch_take b c.key m hm (le_of_lt h1)]; rfl
      rwa [hk, List.take_append_drop] at this
    have hs1 : strict_siblings (split c m) := by
      simp [strict_siblings, split]
    have ha1 : all_below strict_siblings (split c m).children := by
      simp only [split, Node.children_mk]
      rw [all_below_single]
      exact ⟨ha.2.1, ha.2.2.1⟩
    obtain ⟨i1, i2⟩ := ih (good_split c m hcg hcok h1) (not_mem_drop b m hb) hns2 hs1 ha1
    constructor
    · refine strict_siblings_replace k k l l L c _ R ?_ hs
      rw [hk2]
      exact front_take c.key m h0
    · rw [all_below_mid]
      exact ⟨ha.1, i1, i2, ha.2.2.2⟩
  | descend k L c R l b m c2 hit hm h0 h1 hrec ih =>
    intro hg hb hns hs ha
    simp only [Node.children_mk] at ha hns ⊢
    rw [all_below_mid] at ha
    have hcg : Good c := hg.children_good c (List.mem_append_right _ (List.mem_cons_self _ _))
    have hk2 : c2.key = c.key := Ins_key _ _ _ hrec
    have hns2 : b.drop m ∉ stored c.children := by
      intro hin
      apply hns
      apply mem_stored_mid
      have := mem_stored_sub_of_children c _ hin
      have hk : c.key = b.take m := by
        have := mismatch_take b c.key m hm (le_of_eq h1)
        rw [this, h1, List.take_length]
      rwa [hk, List.take_append_drop] at this
    obtain ⟨i1, i2⟩ := ih hcg (not_mem_drop b m hb) hns2 ha.2.1 ha.2.2.1
    constructor
    · exact strict_siblings_replace k k l l L c _ R (by rw [hk2]) hs
    · rw [all_below_mid]
      exact ⟨ha.1, i1, i2, ha.2.2.2⟩

/-! ## Sets built from the empty set -/

theorem stored_empty (q : List Int) : q ∉ stored RadixTreeSet.empty.root_.children := by
  simp [RadixTreeSet.empty, stored_nil]

/-- Inserting keys without a zero byte into the empty set always succeeds; the result
satisfies the invariant, has counted every key and stores exactly the keys. -/
theorem insertAll_empty_good (keys : List (List Int)) (hz : ∀ k ∈ keys, (0 : Int) ∉ k) :
    ∃ t, insertAll RadixTreeSet.empty keys = .ok t ∧ Good t.root_ ∧
      t.size_ = keys.length ∧ ∀ q, q ∈ stored t.root_.children ↔ q ∈ keys := by
  obtain ⟨t, h, hg⟩ := insertAll_good keys RadixTreeSet.empty good_empty hz
  obtain ⟨h1, h2⟩ := insertAll_append_ok keys _ t h
  refine ⟨t, h, hg, ?_, fun q => ?_⟩
  · rw [h1]
    simp [RadixTreeSet.empty]
  · rw [h2]
    constructor
    · rintro (hq | hq)
      · exact hq
      · exact absurd hq (stored_empty q)
    · exact Or.inl

theorem insertAll_empty_inv (keys : List (List Int)) (hz : ∀ k ∈ keys, (0 : Int) ∉ k)
    (t : RadixTreeSet) (h : insertAll RadixTreeSet.empty keys = .ok t) :
    Good t.root_ ∧ t.size_ = keys.length ∧ ∀ q, q ∈ stored t.root_.children ↔ q ∈ keys := by
  obtain ⟨t1, h1, hr⟩ := insertAll_empty_good keys hz
  rw [h] at h1
  cases h1
  exact hr

theorem Find_stored (t : RadixTreeSet) (hg : Good t.root_) (q : List Int)
    (hq : (0 : Int) ∉ q) : t.Find q = .ok (decide (q ∈ stored t.root_.children)) :=
  FindLoop_stored t.root_ hg q hq

theorem Find_sound (t : RadixTreeSet) (q : List Int) (h : t.Find q = .ok true) :
    q ∈ stored t.root_.children :=
  FindLoop_sound t.root_ q h

theorem insertAll_strict : ∀ (keys : List (List Int)) (t0 t : RadixTreeSet),
    Good t0.root_ → (∀ k ∈ keys, (0 : Int) ∉ k) → keys.Nodup →
    (∀ k ∈ keys, k ∉ stored t0.root_.children) →
    strict_siblings t0.root_ → all_below strict_siblings t0.root_.children →
    insertAll t0 keys = .ok t →
    strict_siblings t.root_ ∧ all_below strict_siblings t.root_.children
  | [], t0, t, _, _, _, _, hs, ha, h => by
    simp only [insertAll, Except.ok.injEq] at h
    subst h
    exact ⟨hs, ha⟩
  | k :: ks, t0, t, hg, hz, hnd, hns, hs, ha, h => by
    obtain ⟨t1, h1, hg1, _, hst⟩ := Insert_good t0 k hg (hz k (List.mem_cons_self _ _))
    rw [insertAll, h1] at h
    try dsimp only at h
    obtain ⟨_, _, hins⟩ := Insert_ok t0 k true t1 h1
    obtain ⟨s1, a1⟩ := Ins_strict _ _ _ hins hg (hz k (List.mem_cons_self _ _))
      (hns k (List.mem_cons_self _ _)) hs ha
    rw [List.nodup_cons] at hnd
    refine insertAll_strict ks t1 t hg1 (fun q hq => hz q (List.mem_cons_of_mem _ hq)) hnd.2
      (fun q hq hin => ?_) s1 a1 h
    rcases (hst q).mp hin with h2 | h2
    · rw [h2] at hq
      exact hnd.1 hq
    · exact hns q (List.mem_cons_of_mem _ hq) h2

theorem insertAll_fragment_ok : ∀ (keys : List (List Int)) (t0 t : RadixTreeSet),
    all_below fragment_ok t0.root_.children → insertAll t0 keys = .ok t →
    all_below fragment_ok t.root_.children
  | [], t0, t, ha, h => by
    simp only [insertAll, Except.ok.injEq] at h
    subst h
    exact ha
  | k :: ks, t0, t, ha, h => by
    rw [insertAll] at h
    cases hi : t0.Insert k with
    | error e => rw [hi] at h; cases h
    | ok res =>
      obtain ⟨r, t1⟩ := res
      rw [hi] at h
      try dsimp only at h
      obtain ⟨_, _, hins⟩ := Insert_ok t0 k r t1 hi
      exact insertAll_fragment_ok ks t1 t (Ins_fragment_ok _ _ _ hins ha) h

theorem mem_stored_nodes (t : RadixTreeSet) (q : List Int) :
    q ∈ stored t.root_.children ↔ ∃ e ∈ t.nodes, e.1 = q ∧ e.2.is_leaf = true := by
  unfold stored RadixTreeSet.nodes
  simp only [List.mem_map, List.mem_filter]
  constructor
  · rintro ⟨e, ⟨he, hl⟩, rfl⟩
    exact ⟨e, he, rfl, hl⟩
  · rintro ⟨e, he, rfl, hl⟩
    exact ⟨e, ⟨he, hl⟩, rfl⟩

/-! ## Further facts for the later claims -/

theorem all_below_of_forall (P : Node → Prop) : ∀ (cs : List Node),
    (∀ c ∈ cs, P c ∧ all_below P c.children) → all_below P cs
  | [], _ => all_below_nil P
  | a :: cs, h => by
    rw [all_below_cons]
    exact ⟨(h a (List.mem_cons_self _ _)).1, (h a (List.mem_cons_self _ _)).2,
      all_below_of_forall P cs (fun c hc => h c (List.mem_cons_of_mem _ hc))⟩

/-- Every node under a node that satisfies the invariant satisfies it. -/
theorem good_all_below (n : Node) (hg : Good n) : all_below Good n.children := by
  induction hg with
  | mk k cs l hs hc hg ih =>
    exact all_below_of_forall Good cs (fun c hc => ⟨hg c hc, ih c hc⟩)

/-- On a node that satisfies the invariant, the empty key is stored under a node exactly
when the node has a child with an empty fragment. -/
theorem nil_mem_stored_iff (c : Node) (hg : Good c) :
    [] ∈ stored c.children ↔ c.children.any (fun d => decide (d.key = [])) = true := by
  rw [mem_stored_iff, List.any_eq_true]
  constructor
  · rintro ⟨d, hd, hin⟩
    obtain ⟨p, hp⟩ := stored_sub_prefix d [] hin
    refine ⟨d, hd, ?_⟩
    have : d.key = [] := (List.append_eq_nil.mp hp.symm).1
    simp [this]
  · rintro ⟨d, hd, hk⟩
    have hk2 : d.key = [] := by simpa using hk
    refine ⟨d, hd, ?_⟩
    rw [stored_sub_empty d (hg.children_ok d hd) hk2]
    simp

/-- The position of the first element that is not less than `v` is the number of leading
elements that are less than `v`. -/
theorem findIdx_eq_takeWhile_length (v : Int) : ∀ (cs : List Node),
    cs.findIdx (fun n => decide (v ≤ front n.key))
      = (cs.takeWhile (fun n => node_lt n v)).length
  | [] => rfl
  | a :: cs => by
    rw [List.findIdx_cons, List.takeWhile_cons]
    by_cases h : front a.key < v
    · have h1 : node_lt a v = true := by simp [node_lt, h]
      have h2 : decide (v ≤ front a.key) = false := by simp [h]
      simp only [h1, h2, if_true, List.length_cons, cond_false]
      rw [findIdx_eq_takeWhile_length v cs]
    · have h1 : node_lt a v = false := by simp [node_lt, h]
      have h2 : decide (v ≤ front a.key) = true := by simp [not_lt.mp h]
      simp [h1, h2]

theorem FindAt_of_getElem : ∀ (cs : List Node) (i : Nat) (c : Node) (b : List Int),
    cs[i]? = some c → FindAt cs i b = FindAt [c] 0 b
  | [], _, _, _, h => by simp at h
  | a :: cs, 0, c, b, h => by
    simp only [List.getElem?_cons_zero, Option.some.injEq] at h
    subst h
    rw [FindAt, FindAt]
  | a :: cs, i + 1, c, b, h => by
    rw [FindAt]
    exact FindAt_of_getElem cs i c b (by simpa using h)

theorem FindAt_total (q : List Int) : ∀ (cs : List Node),
    (∀ c ∈ cs, ∀ p, ∃ r, FindLoop c p = .ok r) → ∀ i, ∃ r, FindAt cs i q = .ok r
  | [], _, i => ⟨false, by simp [FindAt]⟩
  | c :: cs, h, 0 => by
    rw [FindAt]
    cases mismatch q c.key with
    | behind => exact ⟨false, rfl⟩
    | ok m =>
      try dsimp only
      by_cases h1 : m ≠ c.key.length
      · rw [if_pos h1]
        exact ⟨false, rfl⟩
      · rw [if_neg h1]
        by_cases h2 : m = q.length ∧ c.is_leaf = true
        · rw [if_pos h2]
          exact ⟨true, rfl⟩
        · rw [if_neg h2]
          exact h c (List.mem_cons_self _ _) (q.drop m)
  | c :: cs, h, i + 1 => by
    rw [FindAt]
    exact FindAt_total q cs (fun d hd => h d (List.mem_cons_of_mem _ hd)) i

/-- The loop of `Find` returns on every tree and for every key. -/
theorem FindLoop_total : ∀ (n : Node) (q : List Int), ∃ r, FindLoop n q = .ok r := by
  intro n
  induction n using Node.induction with
  | h k cs l ih =>
    intro q
    rw [FindLoop]
    exact FindAt_total q cs ih _

/-- On every run of the first loop of `main` that returns, the keys stored in the tree
are exactly the inserted keys. -/
theorem insertAll_empty_stored (keys : List (List Int)) (t : RadixTreeSet)
    (h : insertAll RadixTreeSet.empty keys = .ok t) :
    ∀ q, q ∈ stored t.root_.children ↔ q ∈ keys := by
  intro q
  rw [(insertAll_append_ok keys _ t h).2 q]
  constructor
  · rintro (hq | hq)
    · exact hq
    · exact absurd hq (stored_empty q)
  · exact Or.inl

/-! ## Two keys with a common prefix -/

theorem lower_bound_nil (v : Int) : lower_bound [] v = 0 := rfl

theorem lower_bound_singleton (n : Node) (v : Int) :
    lower_bound [n] v = if front n.key < v then 1 else 0 := by
  by_cases h : front n.key < v
  · simp [lower_bound, lower_bound_loop, node_lt, h]
  · simp [lower_bound, lower_bound_loop, node_lt, h]

theorem mismatch_common_prefix : ∀ (p x y : List Int), x ≠ [] → y ≠ [] →
    front x ≠ front y → mismatch (p ++ y) (p ++ x) = .ok p.length
  | [], x, y, hx, hy, hxy => by
    cases x with
    | nil => exact absurd rfl hx
    | cons x0 xs =>
      cases y with
      | nil => exact absurd rfl hy
      | cons y0 ys =>
        have h : y0 ≠ x0 := fun h => hxy (by simp [front, h])
        simp [mismatch, h]
  | a :: p, x, y, hx, hy, hxy => by
    simp [mismatch, mismatch_common_prefix p x y hx hy hxy, Mis.succ]

theorem mismatch_prefix : ∀ (p s : List Int), mismatch p (p ++ s) = .ok p.length
  | [], s => by simp [mismatch]
  | a :: p, s => by simp [mismatch, mismatch_prefix p s, Mis.succ]

theorem front_append (p s : List Int) (hp : p ≠ []) : front (p ++ s) = front p := by
  cases p with
  | nil => exact absurd rfl hp
  | cons a p => rfl

/-- Inserting into the empty set appends one leaf with the whole key. -/
theorem Insert_empty (b : List Int) :
    RadixTreeSet.empty.Insert b = .ok (true, ⟨.mk [] [.mk b [] true] false, 1⟩) := by
  simp [RadixTreeSet.Insert, RadixTreeSet.empty, InsertLoop, lower_bound_nil]

/-- Inserting `p ++ x` and then `p ++ y`, where `x` and `y` start with different bytes:
the second call splits the leaf `p ++ x` behind `p` and adds the leaf `y` next to the
split-off node `x`. -/
theorem insertAll_two_branches (p x y : List Int) (hp : p ≠ []) (hx : x ≠ []) (hy : y ≠ [])
    (hxy : front x ≠ front y) :
    insertAll RadixTreeSet.empty [p ++ x, p ++ y]
      = .ok ⟨.mk [] [.mk p (if front x < front y then [.mk x [] true, .mk y [] true]
          else [.mk y [] true, .mk x [] true]) false] false, 2⟩ := by
  have hp0 : p.length ≠ 0 := fun h => hp (List.length_eq_zero.mp h)
  have hx0 : x.length ≠ 0 := fun h => hx (List.length_eq_zero.mp h)
  have hy0 : y.length ≠ 0 := fun h => hy (List.length_eq_zero.mp h)
  obtain ⟨f, hf⟩ : ∃ f, (p ++ y).length = f + 1 := ⟨p.length + y.length - 1, by
    rw [List.length_append]; omega⟩
  have hm := mismatch_common_prefix p x y hx hy hxy
  rw [insertAll, Insert_empty]
  simp only [insertAll]
  unfold RadixTreeSet.Insert
  rw [hf, InsertLoop]
  simp only [lower_bound_singleton, Node.key_mk, front_append p x hp, front_append p y hp,
    lt_irrefl, if_false, List.getElem?_cons_zero, hm, hp0, List.length_append]
  have h1 : p.length ≠ p.length + x.length := by omega
  have h2 : ¬ p.length = p.length + y.length := by omega
  simp only [h1, h2, ne_eq, not_false_eq_true, true_and, and_false, if_false, if_true,
    lt_add_iff_pos_right, not_lt, Nat.zero_le, add_lt_iff_neg_left, not_lt_zero',
    List.drop_left', List.drop_left, split, Node.key_mk, Node.children_mk, Node.is_leaf_mk,
    List.take_left', List.take_left]
  rw [InsertLoop]
  simp only [split, Node.key_mk, Node.children_mk, Node.is_leaf_mk, List.take_left',
    List.take_left, List.drop_left', List.drop_left, lower_bound_singleton]
  by_cases hlt : front x < front y
  · simp [hlt]
  · have hm0 : mismatch y x = .ok 0 := by
      have := mismatch_common_prefix [] x y hx hy hxy
      simpa using this
    simp [hlt, hm0]

/-! ## Counting the descents of `Find` -/

theorem FindAtN_fst (b : List Int) : ∀ (cs : List Node),
    (∀ c ∈ cs, ∀ q, (FindLoopN c q).map Prod.fst = FindLoop c q) →
    ∀ i, (FindAtN cs i b).map Prod.fst = FindAt cs i b
  | [], _, i => by simp [FindAtN, FindAt, Except.map]
  | c :: cs, h, 0 => by
    rw [FindAtN, FindAt]
    cases mismatch b c.key with
    | behind => rfl
    | ok m =>
      try dsimp only
      by_cases h1 : m ≠ c.key.length
      · rw [if_pos h1, if_pos h1]; rfl
      · rw [if_neg h1, if_neg h1]
        by_cases h2 : m = b.length ∧ c.is_leaf = true
        · rw [if_pos h2, if_pos h2]; rfl
        · rw [if_neg h2, if_neg h2, ← h c (List.mem_cons_self _ _) (b.drop m)]
          cases FindLoopN c (b.drop m) with
          | error e => rfl
          | ok res =>
            obtain ⟨r, d⟩ := res
            rfl
  | c :: cs, h, i + 1 => by
    rw [FindAtN, FindAt]
    exact FindAtN_fst b cs (fun d hd => h d (List.mem_cons_of_mem _ hd)) i

/-- The loop with the counter returns what the loop of `Find` returns. -/
theorem FindLoopN_fst : ∀ (n : Node) (b : List Int),
    (FindLoopN n b).map Prod.fst = FindLoop n b := by
  intro n
  induction n using Node.induction with
  | h k cs l ih =>
    intro b
    rw [FindLoopN, FindLoop]
    exact FindAtN_fst b cs ih _

theorem FindAtN_bound (q : List Int) (hq : (0 : Int) ∉ q) : ∀ (cs : List Node),
    (∀ c ∈ cs, child_ok c) →
    (∀ c ∈ cs, ∀ p, (0 : Int) ∉ p → ∃ r d, FindLoopN c p = .ok (r, d) ∧ d ≤ p.length + 1) →
    ∀ i, ∃ r d, FindAtN cs i q = .ok (r, d) ∧ d ≤ q.length + 1
  | [], _, _, i => ⟨false, 0, by simp [FindAtN], Nat.zero_le _⟩
  | c :: cs, hc, ih, 0 => by
    obtain ⟨m, hm, hmle⟩ := mismatch_zero_free q c.key hq
    have hmq := mismatch_le_left q c.key m hm
    rw [FindAtN, hm]
    try dsimp only
    by_cases h1 : m ≠ c.key.length
    · rw [if_pos h1]
      exact ⟨false, 0, rfl, Nat.zero_le _⟩
    · rw [if_neg h1]
      by_cases h2 : m = q.length ∧ c.is_leaf = true
      · rw [if_pos h2]
        exact ⟨true, 0, rfl, Nat.zero_le _⟩
      · rw [if_neg h2]
        have he : m = c.key.length := not_not.mp h1
        by_cases hk : c.key = []
        · obtain ⟨hch, _⟩ := (hc c (List.mem_cons_self _ _)).2 hk
          obtain ⟨k, ccs, l⟩ := c
          simp only [Node.children_mk] at hch
          subst hch
          rw [FindLoopN, FindAtN]
          exact ⟨false, 1, rfl, by omega⟩
        · obtain ⟨r, d, hr, hd⟩ := ih c (List.mem_cons_self _ _) (q.drop m)
            (not_mem_drop q m hq)
          rw [hr]
          refine ⟨r, d + 1, rfl, ?_⟩
          have hpos : 0 < c.key.length := List.length_pos.mpr hk
          rw [List.length_drop] at hd
          omega
  | c :: cs, hc, ih, i + 1 => by
    rw [FindAtN]
    exact FindAtN_bound q hq cs (fun d hd => hc d (List.mem_cons_of_mem _ hd))
      (fun d hd => ih d (List.mem_cons_of_mem _ hd)) i

/-- On a node that satisfies the invariant, `Find` of a key without a zero byte returns
after at most one descent more than the key has bytes. -/
theorem FindLoopN_bound (n : Node) (hg : Good n) :
    ∀ q, (0 : Int) ∉ q → ∃ r d, FindLoopN n q = .ok (r, d) ∧ d ≤ q.length + 1 := by
  induction hg with
  | mk k cs l hs hc hg ih =>
    intro q hq
    rw [FindLoopN]
    exact FindAtN_bound q hq cs hc ih _

/-! ## The claims -/

/-- What holds of membership without a zero byte: for every list of byte strings none of
which contains a zero byte (the empty string allowed), inserting them one after the other
into the empty set succeeds, and afterwards `Find` returns `true` for every inserted
key. -/
theorem find_inserted_zero_free (keys : List (List Int)) (hz : ∀ k ∈ keys, (0 : Int) ∉ k) :
    ∃ t, insertAll RadixTreeSet.empty keys = .ok t ∧ ∀ k ∈ keys, t.Find k = .ok true := by
  obtain ⟨t, h, hg, _, hst⟩ := insertAll_empty_good keys hz
  refine ⟨t, h, fun k hk => ?_⟩
  rw [Find_stored t hg k (hz k hk)]
  simp [(hst k).mpr hk]

/-- An instance of `find_inserted_zero_free`: the empty string, `te`, `test` and `team`. -/
theorem find_inserted_zero_free_witness :
    (∀ k ∈ [[], [116, 101], [116, 101, 115, 116], [116, 101, 97, 109]], (0 : Int) ∉ k) ∧
    ∃ t, insertAll RadixTreeSet.empty
        [[], [116, 101], [116, 101, 115, 116], [116, 101, 97, 109]] = .ok t ∧
      ∀ k ∈ [[], [116, 101], [116, 101, 115, 116], [116, 101, 97, 109]],
        t.Find k = .ok true :=
  ⟨by decide, find_inserted_zero_free _ (by decide)⟩

/-- C1: the code at two failing inputs. After inserting the one-byte key `0` and then the
empty key (two distinct keys), `Find` of the key `0` returns `false`; after inserting the
two-byte keys `1`, `1` and `1`, `0`, `Find` of the key `1`, `0` returns `false`. Both
insertions return in each case, and the assertion of the driver on `Find` fails. -/
theorem find_inserted_fails_zero_byte :
    ([[(0 : Int)], []].Nodup ∧
      ∃ t, insertAll RadixTreeSet.empty [[0], []] = .ok t ∧ t.Find [0] = .ok false) ∧
    ([[(1 : Int), 1], [1, 0]].Nodup ∧
      ∃ t, insertAll RadixTreeSet.empty [[1, 1], [1, 0]] = .ok t ∧
        t.Find [1, 0] = .ok false) :=
  ⟨⟨by decide, ⟨.mk [] [.mk [] [] true, .mk [0] [] true] false, 2⟩, rfl, rfl⟩,
    ⟨by decide, ⟨.mk [] [.mk [1] [.mk [0] [] true, .mk [1] [] true] false] false, 2⟩,
      rfl, rfl⟩⟩

/-- C2: for every set built from the empty set by inserting byte strings, and every byte
string `k` that is not among them (the empty string, a proper prefix or a proper
extension of a member, a string that shares part of a prefix with members, a string with
zero bytes), `Find(k)` returns `false`. -/
theorem find_absent_returns_false (keys : List (List Int)) (t : RadixTreeSet)
    (h : insertAll RadixTreeSet.empty keys = .ok t) (k : List Int) (hk : k ∉ keys) :
    t.Find k = .ok false := by
  obtain ⟨r, hr⟩ := FindLoop_total t.root_ k
  cases r with
  | false => exact hr
  | true => exact absurd ((insertAll_empty_stored keys t h k).mp (Find_sound t k hr)) hk

/-- C2, witness: after `apple` and `apply`, the keys `appl`, `app`, `applesauce` and the
empty key are not found, and neither is `apple` followed by a zero byte and `s`. -/
theorem find_absent_returns_false_witness :
    insertAll RadixTreeSet.empty [[97, 112, 112, 108, 101], [97, 112, 112, 108, 121]]
      = .ok ⟨.mk [] [.mk [97, 112, 112, 108] [.mk [101] [] true, .mk [121] [] true] false]
          false, 2⟩ ∧
    RadixTreeSet.Find ⟨.mk [] [.mk [97, 112, 112, 108] [.mk [101] [] true,
        .mk [121] [] true] false] false, 2⟩ [97, 112, 112, 108] = .ok false ∧
    RadixTreeSet.Find ⟨.mk [] [.mk [97, 112, 112, 108] [.mk [101] [] true,
        .mk [121] [] true] false] false, 2⟩ [97, 112, 112] = .ok false ∧
    RadixTreeSet.Find ⟨.mk [] [.mk [97, 112, 112, 108] [.mk [101] [] true,
        .mk [121] [] true] false] false, 2⟩ [97, 112, 112, 108, 101, 115, 97, 117, 99, 101]
      = .ok false ∧
    RadixTreeSet.Find ⟨.mk [] [.mk [97, 112, 112, 108] [.mk [101] [] true,
        .mk [121] [] true] false] false, 2⟩ [] = .ok false ∧
    RadixTreeSet.Find ⟨.mk [] [.mk [97, 112, 112, 108] [.mk [101] [] true,
        .mk [121] [] true] false] false, 2⟩ [97, 112, 112, 108, 101, 0, 115] = .ok false :=
  ⟨rfl,
    find_absent_returns_false [[97, 112, 112, 108, 101], [97, 112, 112, 108, 121]] _ rfl
      [97, 112, 112, 108] (by decide),
    find_absent_returns_false [[97, 112, 112, 108, 101], [97, 112, 112, 108, 121]] _ rfl
      [97, 112, 112] (by decide),
    find_absent_returns_false [[97, 112, 112, 108, 101], [97, 112, 112, 108, 121]] _ rfl
      [97, 112, 112, 108, 101, 115, 97, 117, 99, 101] (by decide),
    find_absent_returns_false [[97, 112, 112, 108, 101], [97, 112, 112, 108, 121]] _ rfl
      [] (by decide),
    find_absent_returns_false [[97, 112, 112, 108, 101], [97, 112, 112, 108, 121]] _ rfl
      [97, 112, 112, 108, 101, 0, 115] (by decide)⟩

/-- C3 (as amended): a duplicate is accepted. For every set built from the empty set by
inserting keys without a zero byte, and every key without a zero byte that is already
stored (`Find` returns `true`), `Insert` returns `true`, `size()` grows by one and the
tree is modified, while `Find` still gives the same answer for every key without a zero
byte, the duplicate included. -/
theorem insert_duplicate_accepted (keys : List (List Int)) (hz : ∀ k ∈ keys, (0 : Int) ∉ k)
    (t : RadixTreeSet) (h : insertAll RadixTreeSet.empty keys = .ok t)
    (key : List Int) (hk : (0 : Int) ∉ key) (hs : t.Find key = .ok true) :
    ∃ t2, t.Insert key = .ok (true, t2) ∧ t2.size = t.size + 1 ∧ t2.root_ ≠ t.root_ ∧
      t2.Find key = .ok true ∧ ∀ q, (0 : Int) ∉ q → t2.Find q = t.Find q := by
  obtain ⟨hg, _, _⟩ := insertAll_empty_inv keys hz t h
  obtain ⟨t2, h2, hg2, hsz, hst⟩ := Insert_good t key hg hk
  obtain ⟨_, _, hins⟩ := Insert_ok t key true t2 h2
  have hin : key ∈ stored t.root_.children := Find_sound t key hs
  have hsame : ∀ q, (0 : Int) ∉ q → t2.Find q = t.Find q := by
    intro q hq
    rw [Find_stored t2 hg2 q hq, Find_stored t hg q hq]
    have : q ∈ stored t2.root_.children ↔ q ∈ stored t.root_.children := by
      rw [hst]
      constructor
      · rintro (h1 | h1)
        · rw [h1]; exact hin
        · exact h1
      · exact Or.inr
    rw [decide_eq_decide.mpr this]
  refine ⟨t2, h2, hsz, fun heq => ?_, ?_, hsame⟩
  · have := Ins_count _ _ _ hins
    rw [heq] at this
    exact lt_irrefl _ this
  · rw [hsame key hk]
    exact hs

/-- C3, witness: the key `dup` inserted into the set that holds `dup`. -/
theorem insert_duplicate_accepted_witness :
    (∀ k ∈ [[(100 : Int), 117, 112]], (0 : Int) ∉ k) ∧
    insertAll RadixTreeSet.empty [[100, 117, 112]]
      = .ok ⟨.mk [] [.mk [100, 117, 112] [] true] false, 1⟩ ∧
    (0 : Int) ∉ [(100 : Int), 117, 112] ∧
    RadixTreeSet.Find ⟨.mk [] [.mk [100, 117, 112] [] true] false, 1⟩ [100, 117, 112]
      = .ok true ∧
    ∃ t2, RadixTreeSet.Insert ⟨.mk [] [.mk [100, 117, 112] [] true] false, 1⟩ [100, 117, 112]
        = .ok (true, t2) ∧
      t2.size = RadixTreeSet.size ⟨.mk [] [.mk [100, 117, 112] [] true] false, 1⟩ + 1 ∧
      t2.root_ ≠ Node.mk [] [.mk [100, 117, 112] [] true] false ∧
      t2.Find [100, 117, 112] = .ok true ∧
      ∀ q, (0 : Int) ∉ q →
        t2.Find q = RadixTreeSet.Find ⟨.mk [] [.mk [100, 117, 112] [] true] false, 1⟩ q :=
  ⟨by decide, rfl, by decide, rfl,
    insert_duplicate_accepted [[100, 117, 112]] (by decide) _ rfl [100, 117, 112]
      (by decide) rfl⟩

/-- C3, counterexample: inserting `dup` twice into the empty set, the second `Insert`
returns `true` (not `false`), `size()` is `2` (not `1`) and the tree has a new node. -/
theorem insert_duplicate_not_rejected :
    RadixTreeSet.empty.Insert [100, 117, 112]
      = .ok (true, ⟨.mk [] [.mk [100, 117, 112] [] true] false, 1⟩) ∧
    RadixTreeSet.Insert ⟨.mk [] [.mk [100, 117, 112] [] true] false, 1⟩ [100, 117, 112]
      = .ok (true, ⟨.mk [] [.mk [100, 117, 112] [.mk [] [] true] true] false, 2⟩) ∧
    RadixTreeSet.size ⟨.mk [] [.mk [100, 117, 112] [.mk [] [] true] true] false, 2⟩ = 2 :=
  ⟨rfl, rfl, rfl⟩

/-- What holds of `size()` without a zero byte: for every list of `n` byte strings none of
which contains a zero byte, all insertions into the empty set return and `size()` is `n`
afterwards. (On every run on which all insertions return, `size()` is `n`:
`insertAll_append_ok`.) -/
theorem size_after_inserts (keys : List (List Int)) (hz : ∀ k ∈ keys, (0 : Int) ∉ k) :
    ∃ t, insertAll RadixTreeSet.empty keys = .ok t ∧ t.size = keys.length := by
  obtain ⟨t, h, _, hsz, _⟩ := insertAll_empty_good keys hz
  exact ⟨t, h, hsz⟩

/-- An instance of `size_after_inserts`: `test`, `team` and `toast`. -/
theorem size_after_inserts_witness :
    (∀ k ∈ [[116, 101, 115, 116], [116, 101, 97, 109], [116, 111, 97, 115, 116]],
      (0 : Int) ∉ k) ∧
    ∃ t, insertAll RadixTreeSet.empty
        [[116, 101, 115, 116], [116, 101, 97, 109], [116, 111, 97, 115, 116]] = .ok t ∧
      t.size = 3 :=
  ⟨by decide, size_after_inserts _ (by decide)⟩

/-- C4: the code at the failing input. Inserting the two distinct keys `a` and `a`, `0`
does not get to a set of size `2`: the second `Insert` takes the split with `mis.second`
behind the end of the fragment `a` and throws `std::length_error`. -/
theorem size_after_inserts_fails_zero_byte :
    [[(97 : Int)], [97, 0]].Nodup ∧
    insertAll RadixTreeSet.empty [[97], [97, 0]] = .error .length_error :=
  ⟨by decide, rfl⟩

/-- What holds of the result of `Insert` without a zero byte: for every set built from
the empty set by inserting keys without a zero byte, and every key without a zero byte
(stored already or not), `Insert` returns `true`; so inserting lines without a zero byte
returns `true` for every line. -/
theorem insert_returns_true (keys : List (List Int)) (hz : ∀ k ∈ keys, (0 : Int) ∉ k)
    (t : RadixTreeSet) (h : insertAll RadixTreeSet.empty keys = .ok t)
    (key : List Int) (hk : (0 : Int) ∉ key) :
    ∃ t2, t.Insert key = .ok (true, t2) := by
  obtain ⟨hg, _, _⟩ := insertAll_empty_inv keys hz t h
  obtain ⟨t2, h2, _⟩ := Insert_good t key hg hk
  exact ⟨t2, h2⟩

/-- An instance of `insert_returns_true`: the new key `toast` inserted after `test` and
`team`. -/
theorem insert_returns_true_witness :
    (∀ k ∈ [[116, 101, 115, 116], [116, 101, 97, 109]], (0 : Int) ∉ k) ∧
    insertAll RadixTreeSet.empty [[116, 101, 115, 116], [116, 101, 97, 109]]
      = .ok ⟨.mk [] [.mk [116, 101] [.mk [97, 109] [] true, .mk [115, 116] [] true] false]
          false, 2⟩ ∧
    (0 : Int) ∉ [(116 : Int), 111, 97, 115, 116] ∧
    ∃ t2, RadixTreeSet.Insert
        ⟨.mk [] [.mk [116, 101] [.mk [97, 109] [] true, .mk [115, 116] [] true] false]
          false, 2⟩ [116, 111, 97, 115, 116] = .ok (true, t2) :=
  ⟨by decide, rfl, by decide,
    insert_returns_true [[116, 101, 115, 116], [116, 101, 97, 109]] (by decide) _ rfl
      [116, 111, 97, 115, 116] (by decide)⟩

/-- C5: the code at the failing input. In the set that holds the empty key, the one-byte
key `0` is not stored (`Find` returns `false`), and `Insert` of it does not return
`true`: the key matches the terminator of the empty fragment, and the split throws
`std::length_error`. -/
theorem insert_new_key_fails_zero_byte :
    insertAll RadixTreeSet.empty [[]] = .ok ⟨.mk [] [.mk [] [] true] false, 1⟩ ∧
    RadixTreeSet.Find ⟨.mk [] [.mk [] [] true] false, 1⟩ [0] = .ok false ∧
    RadixTreeSet.Insert ⟨.mk [] [.mk [] [] true] false, 1⟩ [0] = .error .length_error :=
  ⟨rfl, rfl, rfl⟩

/-- What holds of the insertion order without a zero byte: for every list of keys without
a zero byte and every permutation of it, both insertion orders return, `Find` returns
`true` on one tree exactly for the keys for which it returns `true` on the other, and for
every query without a zero byte the two trees give the same result. -/
theorem find_order_invariant (l p : List (List Int)) (hp : l.Perm p)
    (hz : ∀ k ∈ l, (0 : Int) ∉ k) :
    ∃ t1 t2, insertAll RadixTreeSet.empty l = .ok t1 ∧
      insertAll RadixTreeSet.empty p = .ok t2 ∧
      (∀ q, t1.Find q = .ok true ↔ t2.Find q = .ok true) ∧
      (∀ q, (0 : Int) ∉ q → t1.Find q = t2.Find q) := by
  have hz2 : ∀ k ∈ p, (0 : Int) ∉ k := fun k hk => hz k (hp.mem_iff.mpr hk)
  obtain ⟨t1, h1, hg1, _, hst1⟩ := insertAll_empty_good l hz
  obtain ⟨t2, h2, hg2, _, hst2⟩ := insertAll_empty_good p hz2
  have hst : ∀ q, q ∈ stored t1.root_.children ↔ q ∈ stored t2.root_.children := by
    intro q
    rw [hst1, hst2]
    exact hp.mem_iff
  have heq : ∀ q, (0 : Int) ∉ q → t1.Find q = t2.Find q := by
    intro q hq
    rw [Find_stored t1 hg1 q hq, Find_stored t2 hg2 q hq, decide_eq_decide.mpr (hst q)]
  have hzq : ∀ (t : RadixTreeSet) (ks : List (List Int)), (∀ k ∈ ks, (0 : Int) ∉ k) →
      (∀ q, q ∈ stored t.root_.children ↔ q ∈ ks) → ∀ q, t.Find q = .ok true →
      (0 : Int) ∉ q := by
    intro t ks hks hs q hq
    exact hks q ((hs q).mp (Find_sound t q hq))
  refine ⟨t1, t2, h1, h2, fun q => ⟨fun hq => ?_, fun hq => ?_⟩, heq⟩
  · rw [← heq q (hzq t1 l hz hst1 q hq)]
    exact hq
  · rw [heq q (hzq t2 p hz2 hst2 q hq)]
    exact hq

/-- An instance of `find_order_invariant`: `te`, `test`, `team` against `test`, `team`,
`te`. -/
theorem find_order_invariant_witness :
    [[(116 : Int), 101], [116, 101, 115, 116], [116, 101, 97, 109]].Perm
      [[116, 101, 115, 116], [116, 101, 97, 109], [116, 101]] ∧
    (∀ k ∈ [[116, 101], [116, 101, 115, 116], [116, 101, 97, 109]], (0 : Int) ∉ k) ∧
    ∃ t1 t2,
      insertAll RadixTreeSet.empty [[116, 101], [116, 101, 115, 116], [116, 101, 97, 109]]
        = .ok t1 ∧
      insertAll RadixTreeSet.empty [[116, 101, 115, 116], [116, 101, 97, 109], [116, 101]]
        = .ok t2 ∧
      (∀ q, t1.Find q = .ok true ↔ t2.Find q = .ok true) ∧
      (∀ q, (0 : Int) ∉ q → t1.Find q = t2.Find q) :=
  ⟨by decide, by decide, find_order_invariant _ _ (by decide) (by decide)⟩

/-- C6: the code at the failing input. The distinct keys `0` (one byte) and the empty key
can be inserted in this order, and `Find` of the empty key is `true` in the tree that
results; in the other order the second `Insert` throws `std::length_error`, and there is
no tree for `Find` to answer `true` on. -/
theorem find_order_matters_zero_byte :
    [[(0 : Int)], []].Nodup ∧ [[(0 : Int)], []].Perm [[], [0]] ∧
    insertAll RadixTreeSet.empty [[0], []]
      = .ok ⟨.mk [] [.mk [] [] true, .mk [0] [] true] false, 2⟩ ∧
    RadixTreeSet.Find ⟨.mk [] [.mk [] [] true, .mk [0] [] true] false, 2⟩ [] = .ok true ∧
    insertAll RadixTreeSet.empty [[], [0]] = .error .length_error :=
  ⟨by decide, by decide, rfl, rfl, rfl⟩

/-- C7: on the empty set, `Find` of the empty key returns `false`, against the comment
"Empty string is always inside". -/
theorem find_empty_key_on_empty_set : RadixTreeSet.empty.Find [] = .ok false := rfl

/-- What holds of the order of siblings without a zero byte: in every set built from the
empty set by inserting pairwise distinct keys without a zero byte, the children of the
root and of every other node are in strictly ascending order of the byte the sibling
comparison reads. -/
theorem siblings_strictly_ascending (keys : List (List Int)) (hnd : keys.Nodup)
    (hz : ∀ k ∈ keys, (0 : Int) ∉ k) (t : RadixTreeSet)
    (h : insertAll RadixTreeSet.empty keys = .ok t) :
    strict_siblings t.root_ ∧ ∀ e ∈ t.nodes, strict_siblings e.2 := by
  refine insertAll_strict keys RadixTreeSet.empty t good_empty hz hnd
    (fun k _ => stored_empty k) ?_ ?_ h
  · simp [strict_siblings, RadixTreeSet.empty]
  · exact all_below_nil _

/-- An instance of `siblings_strictly_ascending`: `test`, `team`, `toast`, `te`. -/
theorem siblings_strictly_ascending_witness :
    [[(116 : Int), 101, 115, 116], [116, 101, 97, 109], [116, 111, 97, 115, 116],
      [116, 101]].Nodup ∧
    (∀ k ∈ [[116, 101, 115, 116], [116, 101, 97, 109], [116, 111, 97, 115, 116], [116, 101]],
      (0 : Int) ∉ k) ∧
    insertAll RadixTreeSet.empty
      [[116, 101, 115, 116], [116, 101, 97, 109], [116, 111, 97, 115, 116], [116, 101]]
      = .ok ⟨.mk [] [.mk [116] [.mk [101] [.mk [] [] true, .mk [97, 109] [] true,
          .mk [115, 116] [] true] false, .mk [111, 97, 115, 116] [] true] false] false, 4⟩ ∧
    strict_siblings (.mk [] [.mk [116] [.mk [101] [.mk [] [] true, .mk [97, 109] [] true,
          .mk [115, 116] [] true] false, .mk [111, 97, 115, 116] [] true] false] false) ∧
    ∀ e ∈ RadixTreeSet.nodes ⟨.mk [] [.mk [116] [.mk [101] [.mk [] [] true,
          .mk [97, 109] [] true, .mk [115, 116] [] true] false,
          .mk [111, 97, 115, 116] [] true] false] false, 4⟩, strict_siblings e.2 :=
  ⟨by decide, by decide, rfl,
    siblings_strictly_ascending
      [[116, 101, 115, 116], [116, 101, 97, 109], [116, 111, 97, 115, 116], [116, 101]]
      (by decide) (by decide) _ rfl⟩

/-- C8: the code at the failing input. After inserting the distinct keys `0` (one byte)
and the empty key, the two children of the root have the same leading byte `0`: the
comparison reads the terminator of the empty fragment. -/
theorem siblings_share_leading_byte :
    [[(0 : Int)], []].Nodup ∧
    ∃ t, insertAll RadixTreeSet.empty [[0], []] = .ok t ∧
      t.root_.children.map (fun c => front c.key) = [0, 0] ∧ ¬ strict_siblings t.root_ :=
  ⟨by decide, ⟨.mk [] [.mk [] [] true, .mk [0] [] true] false, 2⟩, rfl, rfl,
    by unfold strict_siblings; decide⟩

/-- C9 (as amended): in every set built from the empty set by inserting keys, a non-root
node marked as a leaf has an inserted key as its path, and every inserted key is the
path of a non-root node marked as a leaf. -/
theorem leaf_paths_are_keys (keys : List (List Int)) (t : RadixTreeSet)
    (h : insertAll RadixTreeSet.empty keys = .ok t) :
    (∀ e ∈ t.nodes, e.2.is_leaf = true → e.1 ∈ keys) ∧
    (∀ k ∈ keys, ∃ e ∈ t.nodes, e.1 = k ∧ e.2.is_leaf = true) := by
  obtain ⟨_, hst⟩ := insertAll_append_ok keys _ t h
  have hst2 : ∀ q, q ∈ stored t.root_.children ↔ q ∈ keys := by
    intro q
    rw [hst]
    constructor
    · rintro (hq | hq)
      · exact hq
      · exact absurd hq (stored_empty q)
    · exact Or.inl
  constructor
  · intro e he hl
    exact (hst2 e.1).mp ((mem_stored_nodes t e.1).mpr ⟨e, he, rfl, hl⟩)
  · intro k hk
    exact (mem_stored_nodes t k).mp ((hst2 k).mpr hk)

/-- C9, witness: `test`, `team`, `te`. -/
theorem leaf_paths_are_keys_witness :
    insertAll RadixTreeSet.empty [[116, 101, 115, 116], [116, 101, 97, 109], [116, 101]]
      = .ok ⟨.mk [] [.mk [116, 101] [.mk [] [] true, .mk [97, 109] [] true,
          .mk [115, 116] [] true] false] false, 3⟩ ∧
    (∀ e ∈ RadixTreeSet.nodes ⟨.mk [] [.mk [116, 101] [.mk [] [] true, .mk [97, 109] [] true,
          .mk [115, 116] [] true] false] false, 3⟩,
      e.2.is_leaf = true → e.1 ∈ [[116, 101, 115, 116], [116, 101, 97, 109], [116, 101]]) ∧
    (∀ k ∈ [[(116 : Int), 101, 115, 116], [116, 101, 97, 109], [116, 101]],
      ∃ e ∈ RadixTreeSet.nodes ⟨.mk [] [.mk [116, 101] [.mk [] [] true,
          .mk [97, 109] [] true, .mk [115, 116] [] true] false] false, 3⟩,
        e.1 = k ∧ e.2.is_leaf = true) :=
  ⟨rfl, leaf_paths_are_keys
    [[116, 101, 115, 116], [116, 101, 97, 109], [116, 101]] _ rfl⟩

/-- C9, counterexample: after `test`, `team`, `te` the node whose path is `te` (the only
child of the root) is not marked as a leaf, although `te` is an inserted key. -/
theorem branch_node_of_key_is_no_leaf :
    ∃ t, insertAll RadixTreeSet.empty [[116, 101, 115, 116], [116, 101, 97, 109], [116, 101]]
        = .ok t ∧
      ∃ e ∈ t.nodes, e.1 = [116, 101] ∧
        e.1 ∈ [[(116 : Int), 101, 115, 116], [116, 101, 97, 109], [116, 101]] ∧
        e.2.is_leaf = false :=
  ⟨⟨.mk [] [.mk [116, 101] [.mk [] [] true, .mk [97, 109] [] true,
      .mk [115, 116] [] true] false] false, 3⟩, rfl,
    ([116, 101], .mk [116, 101] [.mk [] [] true, .mk [97, 109] [] true,
      .mk [115, 116] [] true] false), List.Mem.head _, rfl, by decide, rfl⟩

/-- C10 (as amended): in every set built from the empty set by inserting keys, every
non-root node has a non-empty fragment or is a leaf without children. -/
theorem fragments_nonempty_or_leaf (keys : List (List Int)) (t : RadixTreeSet)
    (h : insertAll RadixTreeSet.empty keys = .ok t) :
    ∀ e ∈ t.nodes, e.2.key ≠ [] ∨ (e.2.children = [] ∧ e.2.is_leaf = true) :=
  insertAll_fragment_ok keys RadixTreeSet.empty t (all_below_nil _) h

/-- C10, witness: `test`, `team`, `te`. -/
theorem fragments_nonempty_or_leaf_witness :
    insertAll RadixTreeSet.empty [[116, 101, 115, 116], [116, 101, 97, 109], [116, 101]]
      = .ok ⟨.mk [] [.mk [116, 101] [.mk [] [] true, .mk [97, 109] [] true,
          .mk [115, 116] [] true] false] false, 3⟩ ∧
    ∀ e ∈ RadixTreeSet.nodes ⟨.mk [] [.mk [116, 101] [.mk [] [] true, .mk [97, 109] [] true,
          .mk [115, 116] [] true] false] false, 3⟩,
      e.2.key ≠ [] ∨ (e.2.children = [] ∧ e.2.is_leaf = true) :=
  ⟨rfl, fragments_nonempty_or_leaf
    [[116, 101, 115, 116], [116, 101, 97, 109], [116, 101]] _ rfl⟩

/-- C10, counterexample: after the non-empty, pairwise distinct keys `test`, `team`, `te`
the node `te` has a child with an empty fragment. -/
theorem empty_fragment_after_te :
    [[(116 : Int), 101, 115, 116], [116, 101, 97, 109], [116, 101]].Nodup ∧
    (∀ k ∈ [[(116 : Int), 101, 115, 116], [116, 101, 97, 109], [116, 101]], k ≠ []) ∧
    ∃ t, insertAll RadixTreeSet.empty [[116, 101, 115, 116], [116, 101, 97, 109], [116, 101]]
        = .ok t ∧
      ∃ e ∈ t.nodes, e.1 = [116, 101] ∧ e.2.key = [] :=
  ⟨by decide, by decide,
    ⟨.mk [] [.mk [116, 101] [.mk [] [] true, .mk [97, 109] [] true,
      .mk [115, 116] [] true] false] false, 3⟩, rfl,
    ([116, 101], .mk [] [] true), List.Mem.tail _ (List.Mem.head _), rfl, rfl⟩

/-- C11 (as amended): in a set built from the empty set by inserting keys without a zero
byte, when the loop of `Find` at a node (the root or any other) finds a candidate whose
whole fragment is matched with the rest of the key used up exactly at its end, `Find`
returns `true` when the candidate is marked as a leaf; otherwise it goes on below the
candidate and returns whether the candidate has a child with an empty fragment. -/
theorem find_exact_exhaustion (keys : List (List Int)) (hz : ∀ k ∈ keys, (0 : Int) ∉ k)
    (t : RadixTreeSet) (h : insertAll RadixTreeSet.empty keys = .ok t)
    (n : Node) (hn : n = t.root_ ∨ ∃ e ∈ t.nodes, e.2 = n) (b : List Int) (c : Node)
    (hc : n.children[lower_bound n.children (front b)]? = some c)
    (m : Nat) (hm : mismatch b c.key = .ok m) (h2 : m = c.key.length) (h1 : m = b.length) :
    FindLoop n b = .ok (c.is_leaf || c.children.any (fun d => decide (d.key = []))) := by
  obtain ⟨hgt, _, _⟩ := insertAll_empty_inv keys hz t h
  have hgn : Good n := by
    rcases hn with hn | ⟨e, he, hn⟩
    · rw [hn]; exact hgt
    · rw [← hn]; exact good_all_below t.root_ hgt e he
  obtain ⟨k, cs, l⟩ := n
  simp only [Node.children_mk] at hc
  obtain ⟨hcs, hlen⟩ := getElem?_decomp cs _ c hc
  have hmem : c ∈ cs := by
    rw [hcs]
    exact List.mem_append_right _ (List.mem_cons_self _ _)
  have hgc : Good c := hgn.children_good c hmem
  rw [FindLoop, FindAt_of_getElem cs _ c b hc, FindAt, hm]
  try dsimp only
  rw [if_neg (not_not.mpr h2)]
  by_cases hl : c.is_leaf = true
  · rw [if_pos ⟨h1, hl⟩, hl]
    rfl
  · rw [if_neg (fun hh => hl hh.2)]
    have hd : b.drop m = [] := by
      rw [List.drop_eq_nil_iff]
      omega
    rw [hd, FindLoop_stored c hgc [] (by simp)]
    have hlf : c.is_leaf = false := by simpa using hl
    rw [hlf, Bool.false_or]
    congr 1
    rw [Bool.eq_iff_iff, decide_eq_true_iff]
    exact nil_mem_stored_iff c hgc

/-- C11, witness: the root of the tree of `test`, `team`, `te` with the key `te`; the
candidate `te` is no leaf, but has a child with an empty fragment. -/
theorem find_exact_exhaustion_witness :
    (∀ k ∈ [[116, 101, 115, 116], [116, 101, 97, 109], [116, 101]], (0 : Int) ∉ k) ∧
    insertAll RadixTreeSet.empty [[116, 101, 115, 116], [116, 101, 97, 109], [116, 101]]
      = .ok ⟨.mk [] [.mk [116, 101] [.mk [] [] true, .mk [97, 109] [] true,
          .mk [115, 116] [] true] false] false, 3⟩ ∧
    mismatch [116, 101] [116, 101] = .ok 2 ∧
    FindLoop (.mk [] [.mk [116, 101] [.mk [] [] true, .mk [97, 109] [] true,
          .mk [115, 116] [] true] false] false) [116, 101]
      = .ok ((Node.mk [116, 101] [.mk [] [] true, .mk [97, 109] [] true,
          .mk [115, 116] [] true] false).is_leaf ||
        (Node.mk [116, 101] [.mk [] [] true, .mk [97, 109] [] true,
          .mk [115, 116] [] true] false).children.any (fun d => decide (d.key = []))) :=
  ⟨by decide, rfl, rfl,
    find_exact_exhaustion [[116, 101, 115, 116], [116, 101, 97, 109], [116, 101]]
      (by decide) ⟨.mk [] [.mk [116, 101] [.mk [] [] true, .mk [97, 109] [] true,
          .mk [115, 116] [] true] false] false, 3⟩ rfl _ (Or.inl rfl) [116, 101]
      (.mk [116, 101] [.mk [] [] true, .mk [97, 109] [] true, .mk [115, 116] [] true] false)
      rfl 2 rfl rfl rfl⟩

/-- C11, counterexample: after `test`, `team`, `te`, `Find` of `te` reaches the candidate
`te` with the whole fragment matched and the key used up; the candidate is no leaf, and
`Find` returns `true`. -/
theorem find_exact_exhaustion_not_leaf_flag :
    ∃ t c, insertAll RadixTreeSet.empty [[116, 101, 115, 116], [116, 101, 97, 109], [116, 101]]
        = .ok t ∧
      t.root_.children[lower_bound t.root_.children (front [116, 101])]? = some c ∧
      mismatch [116, 101] c.key = .ok c.key.length ∧
      c.key.length = [(116 : Int), 101].length ∧
      c.is_leaf = false ∧ t.Find [116, 101] = .ok true :=
  ⟨⟨.mk [] [.mk [116, 101] [.mk [] [] true, .mk [97, 109] [] true,
      .mk [115, 116] [] true] false] false, 3⟩,
    .mk [116, 101] [.mk [] [] true, .mk [97, 109] [] true, .mk [115, 116] [] true] false,
    rfl, rfl, rfl, rfl, rfl, rfl⟩

/-- C12: for every set `t` built from the empty set by inserting keys without a zero byte
(duplicates allowed) and all keys `k` and `q` without a zero byte, `Insert(k)` returns,
and `Find(q)` afterwards is `q = k` or `Find(q)` on `t`. -/
theorem insert_changes_only_its_key (keys : List (List Int))
    (hz : ∀ k ∈ keys, (0 : Int) ∉ k) (t : RadixTreeSet)
    (h : insertAll RadixTreeSet.empty keys = .ok t)
    (k : List Int) (hk : (0 : Int) ∉ k) (q : List Int) (hq : (0 : Int) ∉ q) :
    ∃ t2 r, t.Insert k = .ok (true, t2) ∧ t.Find q = .ok r ∧
      t2.Find q = .ok (decide (q = k) || r) := by
  obtain ⟨hg, _, _⟩ := insertAll_empty_inv keys hz t h
  obtain ⟨t2, h2, hg2, _, hst⟩ := Insert_good t k hg hk
  refine ⟨t2, decide (q ∈ stored t.root_.children), h2, Find_stored t hg q hq, ?_⟩
  rw [Find_stored t2 hg2 q hq]
  congr 1
  rw [Bool.eq_iff_iff]
  simp only [decide_eq_true_iff, Bool.or_eq_true]
  exact hst q

/-- C12, witness: `te` inserted after `test`, `team` and `test` again, queried with
`team`. -/
theorem insert_changes_only_its_key_witness :
    (∀ k ∈ [[116, 101, 115, 116], [116, 101, 97, 109], [116, 101, 115, 116]],
      (0 : Int) ∉ k) ∧
    insertAll RadixTreeSet.empty [[116, 101, 115, 116], [116, 101, 97, 109],
        [116, 101, 115, 116]]
      = .ok ⟨.mk [] [.mk [116, 101] [.mk [97, 109] [] true,
          .mk [115, 116] [.mk [] [] true] true] false] false, 3⟩ ∧
    (0 : Int) ∉ [(116 : Int), 101] ∧ (0 : Int) ∉ [(116 : Int), 101, 97, 109] ∧
    ∃ t2 r, RadixTreeSet.Insert ⟨.mk [] [.mk [116, 101] [.mk [97, 109] [] true,
          .mk [115, 116] [.mk [] [] true] true] false] false, 3⟩ [116, 101] = .ok (true, t2) ∧
      RadixTreeSet.Find ⟨.mk [] [.mk [116, 101] [.mk [97, 109] [] true,
          .mk [115, 116] [.mk [] [] true] true] false] false, 3⟩ [116, 101, 97, 109] = .ok r ∧
      t2.Find [116, 101, 97, 109] = .ok (decide ([116, 101, 97, 109] = [(116 : Int), 101]) || r) :=
  ⟨by decide, rfl, by decide, by decide,
    insert_changes_only_its_key
      [[116, 101, 115, 116], [116, 101, 97, 109], [116, 101, 115, 116]] (by decide) _ rfl
      [116, 101] (by decide) [116, 101, 97, 109] (by decide)⟩

/-- What holds of the result of `Insert`: whenever `Insert` returns, on any tree and with
any key, it returns `true` and has increased `size()` by exactly one, so after `m` calls
that return `size()` has grown by `m`; and `Insert` does return on every set built from
the empty set by inserting keys without a zero byte, for every key without a zero byte
(new, already stored, or empty). -/
theorem insert_never_false (t : RadixTreeSet) (key : List Int) :
    (∀ r t2, t.Insert key = .ok (r, t2) → r = true ∧ t2.size = t.size + 1) ∧
    (∀ keys t2, insertAll t keys = .ok t2 → t2.size = t.size + keys.length) ∧
    (∀ keys, (∀ k ∈ keys, (0 : Int) ∉ k) → insertAll RadixTreeSet.empty keys = .ok t →
      (0 : Int) ∉ key → ∃ t2, t.Insert key = .ok (true, t2) ∧ t2.size = t.size + 1) := by
  refine ⟨fun r t2 h => ?_, fun keys t2 h => ?_, fun keys hz h hk => ?_⟩
  · obtain ⟨h1, h2, _⟩ := Insert_ok t key r t2 h
    exact ⟨h1, h2⟩
  · exact (insertAll_append_ok keys t t2 h).1
  · obtain ⟨hg, _, _⟩ := insertAll_empty_inv keys hz t h
    obtain ⟨t2, h2, _, hsz, _⟩ := Insert_good t key hg hk
    exact ⟨t2, h2, hsz⟩

/-- An instance of `insert_never_false`: the stored key `dup` and the empty key, each
inserted into the set that holds `dup`. -/
theorem insert_never_false_witness :
    (∃ t2, RadixTreeSet.Insert ⟨.mk [] [.mk [100, 117, 112] [] true] false, 1⟩ [100, 117, 112]
        = .ok (true, t2) ∧
      t2.size = RadixTreeSet.size ⟨.mk [] [.mk [100, 117, 112] [] true] false, 1⟩ + 1) ∧
    (∃ t2, RadixTreeSet.Insert ⟨.mk [] [.mk [100, 117, 112] [] true] false, 1⟩ []
        = .ok (true, t2) ∧
      t2.size = RadixTreeSet.size ⟨.mk [] [.mk [100, 117, 112] [] true] false, 1⟩ + 1) :=
  ⟨(insert_never_false ⟨.mk [] [.mk [100, 117, 112] [] true] false, 1⟩ [100, 117, 112]).2.2
      [[100, 117, 112]] (by decide) rfl (by decide),
    (insert_never_false ⟨.mk [] [.mk [100, 117, 112] [] true] false, 1⟩ []).2.2
      [[100, 117, 112]] (by decide) rfl (by decide)⟩

/-- C13: the code at the failing input. In the set that holds `a`, `Insert` of the three
bytes `a`, `0`, `b` does not return `true`: the comparison runs on behind the terminator
of the fragment `a`, the split is taken with `mis.second` behind the end, and building
the string throws `std::length_error`; `size()` stays `1`. -/
theorem insert_faults_zero_byte :
    insertAll RadixTreeSet.empty [[97]] = .ok ⟨.mk [] [.mk [97] [] true] false, 1⟩ ∧
    mismatch [97, 0, 98] [97] = .behind ∧
    RadixTreeSet.Insert ⟨.mk [] [.mk [97] [] true] false, 1⟩ [97, 0, 98]
      = .error .length_error :=
  ⟨rfl, rfl, rfl⟩

/-- C17: for every node whose children are sorted ascending by the leading byte of their
fragment and every byte `v`, the lookup of `Insert` and `Find` returns the position of
the first child whose leading byte is at least `v`, and returns the end position exactly
when the leading byte of every child is less than `v`. -/
theorem lower_bound_first_not_less (n : Node) (v : Int)
    (hs : (n.children.map (fun c => front c.key)).Pairwise (fun x y => x ≤ y)) :
    lower_bound n.children v = n.children.findIdx (fun c => decide (v ≤ front c.key)) ∧
    (lower_bound n.children v = n.children.length ↔ ∀ c ∈ n.children, front c.key < v) := by
  have hs2 : n.children.Pairwise (fun a b => front a.key ≤ front b.key) :=
    List.pairwise_map.mp hs
  have hlb := lower_bound_sorted v n.children hs2
  refine ⟨?_, ?_⟩
  · rw [hlb, findIdx_eq_takeWhile_length]
  · constructor
    · intro he
      rw [hlb] at he
      exact takeWhile_length_all v n.children (le_of_eq he.symm)
    · intro hall
      rw [hlb]
      have : n.children.takeWhile (fun c => node_lt c v) = n.children := by
        rw [List.takeWhile_eq_self_iff]
        intro c hc
        simp [node_lt, hall c hc]
      rw [this]

/-- C17, witness: children with the leading bytes `a`, `s`, `t` and the byte `f`: the
lookup returns position `1`. -/
theorem lower_bound_first_not_less_witness :
    ((Node.mk [] [.mk [97, 109] [] true, .mk [115, 116] [] true, .mk [116] [] true]
        false).children.map (fun c => front c.key)).Pairwise (fun x y => x ≤ y) ∧
    lower_bound (Node.mk [] [.mk [97, 109] [] true, .mk [115, 116] [] true,
        .mk [116] [] true] false).children 102 = 1 ∧
    (Node.mk [] [.mk [97, 109] [] true, .mk [115, 116] [] true,
        .mk [116] [] true] false).children.findIdx (fun c => decide ((102 : Int) ≤ front c.key))
      = 1 :=
  ⟨by decide, rfl, ((lower_bound_first_not_less (.mk [] [.mk [97, 109] [] true,
      .mk [115, 116] [] true, .mk [116] [] true] false) 102 (by decide)).1).symm.trans rfl⟩

/-- C15: for all non-empty byte strings `p` and `s`, inserting `p ++ s` and then `p` into
the empty set returns `true` both times and gives a root with exactly one child, whose
fragment is `p` and which is marked as a leaf, with exactly one child, a leaf without
children with the fragment `s`; `size()` is `2`. -/
theorem split_completes_key (p s : List Int) (hp : p ≠ []) (hs : s ≠ []) :
    RadixTreeSet.empty.Insert (p ++ s)
      = .ok (true, ⟨.mk [] [.mk (p ++ s) [] true] false, 1⟩) ∧
    RadixTreeSet.Insert ⟨.mk [] [.mk (p ++ s) [] true] false, 1⟩ p
      = .ok (true, ⟨.mk [] [.mk p [.mk s [] true] true] false, 2⟩) ∧
    RadixTreeSet.size ⟨.mk [] [.mk p [.mk s [] true] true] false, 2⟩ = 2 := by
  refine ⟨Insert_empty (p ++ s), ?_, rfl⟩
  have hp0 : p.length ≠ 0 := fun h => hp (List.length_eq_zero.mp h)
  have hs0 : s.length ≠ 0 := fun h => hs (List.length_eq_zero.mp h)
  unfold RadixTreeSet.Insert
  rw [InsertLoop]
  simp only [lower_bound_singleton, Node.key_mk, front_append p s hp, lt_irrefl, if_false,
    List.getElem?_cons_zero, mismatch_prefix, hp0, List.length_append]
  have h2 : p.length ≠ p.length + s.length := by omega
  simp [h2, set_leaf, split]

/-- C15, witness: `test` and then `te` give the leaf `te` with the child `st`. -/
theorem split_completes_key_witness :
    [(116 : Int), 101] ≠ [] ∧ [(115 : Int), 116] ≠ [] ∧
    RadixTreeSet.empty.Insert [116, 101, 115, 116]
      = .ok (true, ⟨.mk [] [.mk [116, 101, 115, 116] [] true] false, 1⟩) ∧
    RadixTreeSet.Insert ⟨.mk [] [.mk [116, 101, 115, 116] [] true] false, 1⟩ [116, 101]
      = .ok (true, ⟨.mk [] [.mk [116, 101] [.mk [115, 116] [] true] true] false, 2⟩) :=
  ⟨by decide, by decide,
    (split_completes_key [116, 101] [115, 116] (by decide) (by decide)).1,
    (split_completes_key [116, 101] [115, 116] (by decide) (by decide)).2.1⟩

/-- C14: for all non-empty byte strings `p`, `x`, `y` where `x` and `y` start with
different bytes, inserting `p ++ x` and `p ++ y` into the empty set, in either order,
gives a root with exactly one child, whose fragment is `p` and which is no leaf, and
whose children are exactly two leaves without children, with the fragments `x` and `y`,
in ascending order of their first byte; `size()` is `2`. -/
theorem split_two_branches (p x y : List Int) (hp : p ≠ []) (hx : x ≠ []) (hy : y ≠ [])
    (hxy : front x ≠ front y) :
    insertAll RadixTreeSet.empty [p ++ x, p ++ y]
      = .ok ⟨.mk [] [.mk p (if front x < front y then [.mk x [] true, .mk y [] true]
          else [.mk y [] true, .mk x [] true]) false] false, 2⟩ ∧
    insertAll RadixTreeSet.empty [p ++ y, p ++ x]
      = .ok ⟨.mk [] [.mk p (if front x < front y then [.mk x [] true, .mk y [] true]
          else [.mk y [] true, .mk x [] true]) false] false, 2⟩ ∧
    RadixTreeSet.size ⟨.mk [] [.mk p (if front x < front y then [.mk x [] true, .mk y [] true]
          else [.mk y [] true, .mk x [] true]) false] false, 2⟩ = 2 := by
  refine ⟨insertAll_two_branches p x y hp hx hy hxy, ?_, rfl⟩
  rw [insertAll_two_branches p y x hp hy hx (Ne.symm hxy)]
  by_cases hlt : front x < front y
  · rw [if_pos hlt, if_neg (not_lt.mpr (le_of_lt hlt))]
  · rw [if_neg hlt, if_pos (lt_of_le_of_ne (not_lt.mp hlt) (Ne.symm hxy))]

/-- C14, witness: `cat` and `car` give the node `ca` with the children `r` and `t`. -/
theorem split_two_branches_witness :
    [(99 : Int), 97] ≠ [] ∧ [(116 : Int)] ≠ [] ∧ [(114 : Int)] ≠ [] ∧
    front [116] ≠ front [114] ∧
    insertAll RadixTreeSet.empty [[99, 97, 116], [99, 97, 114]]
      = .ok ⟨.mk [] [.mk [99, 97] [.mk [114] [] true, .mk [116] [] true] false] false, 2⟩ ∧
    insertAll RadixTreeSet.empty [[99, 97, 114], [99, 97, 116]]
      = .ok ⟨.mk [] [.mk [99, 97] [.mk [114] [] true, .mk [116] [] true] false] false, 2⟩ :=
  ⟨by decide, by decide, by decide, by decide,
    (split_two_branches [99, 97] [116] [114] (by decide) (by decide) (by decide)
      (by decide)).1.trans rfl,
    (split_two_branches [99, 97] [116] [114] (by decide) (by decide) (by decide)
      (by decide)).2.1.trans rfl⟩

/-- C16: for every set built from the empty set by inserting keys without a zero byte and
every key without a zero byte, `Find` returns, and its loop descends into a child at most
`|key| + 1` times. -/
theorem find_descents_bounded (keys : List (List Int)) (hz : ∀ k ∈ keys, (0 : Int) ∉ k)
    (t : RadixTreeSet) (h : insertAll RadixTreeSet.empty keys = .ok t)
    (key : List Int) (hk : (0 : Int) ∉ key) :
    ∃ r d, FindLoopN t.root_ key = .ok (r, d) ∧ t.Find key = .ok r ∧ d ≤ key.length + 1 := by
  obtain ⟨hg, _, _⟩ := insertAll_empty_inv keys hz t h
  obtain ⟨r, d, hr, hd⟩ := FindLoopN_bound t.root_ hg key hk
  refine ⟨r, d, hr, ?_, hd⟩
  have := FindLoopN_fst t.root_ key
  rw [hr] at this
  exact this.symm

/-- C16, witness: `Find` of `te` after `test`, `team`, `te` descends once. -/
theorem find_descents_bounded_witness :
    (∀ k ∈ [[116, 101, 115, 116], [116, 101, 97, 109], [116, 101]], (0 : Int) ∉ k) ∧
    insertAll RadixTreeSet.empty [[116, 101, 115, 116], [116, 101, 97, 109], [116, 101]]
      = .ok ⟨.mk [] [.mk [116, 101] [.mk [] [] true, .mk [97, 109] [] true,
          .mk [115, 116] [] true] false] false, 3⟩ ∧
    (0 : Int) ∉ [(116 : Int), 101] ∧
    FindLoopN (.mk [] [.mk [116, 101] [.mk [] [] true, .mk [97, 109] [] true,
          .mk [115, 116] [] true] false] false) [116, 101] = .ok (true, 1) ∧
    ∃ r d, FindLoopN (RadixTreeSet.root_ ⟨.mk [] [.mk [116, 101] [.mk [] [] true,
          .mk [97, 109] [] true, .mk [115, 116] [] true] false] false, 3⟩) [116, 101]
        = .ok (r, d) ∧
      RadixTreeSet.Find ⟨.mk [] [.mk [116, 101] [.mk [] [] true, .mk [97, 109] [] true,
          .mk [115, 116] [] true] false] false, 3⟩ [116, 101] = .ok r ∧
      d ≤ [(116 : Int), 101].length + 1 :=
  ⟨by decide, rfl, by decide, rfl,
    find_descents_bounded [[116, 101, 115, 116], [116, 101, 97, 109], [116, 101]]
      (by decide) _ rfl [116, 101] (by decide)⟩
